import Mathlib

/-!
Verification of the lancelot schema resolver and record transcoder.

This file is a shallow embedding of the Rust sources
`src/ext/lancelot/src/schema.rs` (`build_arrow_schema`) and
`src/ext/lancelot/src/conversion.rs` (`build_record_batch`,
`convert_batch_to_ruby`).  Ruby values crossing the magnus boundary are
modelled as a closed tagged variant (`RValue`); Ruby `Float` (binary64)
payloads are modelled as rationals, and the float64→float32 narrowing
performed by `as f32` is abstracted as a parameter `n32 : Rat → Rat`
threaded through encode: every theorem below holds for an arbitrary
narrowing function, hence in particular for the real IEEE-754 one.
Machine integers are modelled as `Int` with explicit range checks where
the magnus conversions perform them.
-/

namespace Lancelot

/-- Ruby hash keys as used by this code: either a `Symbol` or a plain
`String` key carrying the same spelling. -/
inductive RKey where
  | sym (s : String)
  | str (s : String)
deriving DecidableEq, Repr

/-- Ruby dynamic values at the magnus boundary, as a closed tagged variant:
nil, booleans, arbitrary-precision integers, binary64 floats (modelled as
rationals), strings, arrays and hashes. -/
inductive RValue where
  | nil
  | bool (b : Bool)
  | int (n : Int)
  | float (q : Rat)
  | str (s : String)
  | array (xs : List RValue)
  | hash (entries : List (RKey × RValue))
deriving Repr

/-- Errors returned through `magnus::Error`: Ruby exception class plus
payload.  `keyError` carries the missing key (Ruby `Hash#fetch` raises
`KeyError`); the message strings of `argError` and `runtimeError`
reproduce the `format!` strings of the source; the `typeError` and
`rangeError` messages raised inside the Ruby C API are canonicalized. -/
inductive RErr where
  | argError (msg : String)
  | keyError (key : RKey)
  | typeError (msg : String)
  | rangeError (msg : String)
  | runtimeError (msg : String)
deriving DecidableEq, Repr

/-- Numeric payload of a Ruby value, if any: Ruby `Integer`s convert
exactly, Ruby `Float`s are their rational payload.  This is exactly the
domain accepted by `rb_num2dbl` (every other tag raises `TypeError`). -/
def numValue : RValue → Option Rat
  | .int n => some (n : Rat)
  | .float q => some q
  | _ => none

/-- Models magnus `String::try_convert` (`rb_str_to_str`): only values
that already are strings convert; no other tag of our variant has a
`to_str`. -/
def tryConvertString : RValue → Except RErr String
  | .str s => .ok s
  | _ => .error (.typeError "no implicit conversion into String")

/-- Models magnus `f64::try_convert` (`rb_num2dbl`): `Float` and
`Integer` convert, everything else raises `TypeError`. -/
def tryConvertF64 : RValue → Except RErr Rat
  | .int n => .ok (n : Rat)
  | .float q => .ok q
  | _ => .error (.typeError "can't convert into Float")

/-- Truncation of a rational toward zero, the behaviour of the C cast
`(long long)d` applied to a Ruby `Float` inside `rb_num2ll`. -/
def ratTrunc (q : Rat) : Int := q.num.tdiv q.den

/-- Smallest `i64`. -/
def i64Min : Int := -(2 ^ 63)

/-- Largest `i64`. -/
def i64Max : Int := 2 ^ 63 - 1

/-- Models magnus `i64::try_convert` (`rb_num2ll`): Ruby `Integer`s in
`i64` range convert exactly (out of range raises `RangeError`); Ruby
`Float`s are truncated toward zero, raising `RangeError` when the
truncation leaves `i64` range; every other tag raises `TypeError`. -/
def tryConvertI64 : RValue → Except RErr Int
  | .int n =>
      if i64Min ≤ n ∧ n ≤ i64Max then .ok n
      else .error (.rangeError "integer too big to convert into long")
  | .float q =>
      if i64Min ≤ ratTrunc q ∧ ratTrunc q ≤ i64Max then .ok (ratTrunc q)
      else .error (.rangeError "float out of range of integer")
  | _ => .error (.typeError "no implicit conversion into Integer")

/-- Smallest `i32`. -/
def i32Min : Int := -(2 ^ 31)

/-- Largest `i32`. -/
def i32Max : Int := 2 ^ 31 - 1

/-- Models magnus `i32::try_convert`: like `tryConvertI64` with `i32`
bounds. -/
def tryConvertI32 : RValue → Except RErr Int
  | .int n =>
      if i32Min ≤ n ∧ n ≤ i32Max then .ok n
      else .error (.rangeError "integer too big to convert into int")
  | .float q =>
      if i32Min ≤ ratTrunc q ∧ ratTrunc q ≤ i32Max then .ok (ratTrunc q)
      else .error (.rangeError "float out of range of integer")
  | _ => .error (.typeError "no implicit conversion into Integer")

/-- Models magnus `bool::try_convert` (`Value::to_bool`): Ruby
truthiness.  Only `nil` and `false` are falsey; every other value is
truthy.  The conversion never fails. -/
def RValue.toBool : RValue → Bool
  | .nil => false
  | .bool b => b
  | _ => true

/-- Models magnus `RArray::try_convert`: only array-tagged values
convert (none of the other tags of our variant has a `to_ary`). -/
def tryConvertRArray : RValue → Except RErr (List RValue)
  | .array xs => .ok xs
  | _ => .error (.typeError "no implicit conversion into Array")

/-- Models magnus `RHash::try_convert`: only hash-tagged values convert. -/
def tryConvertRHash : RValue → Except RErr (List (RKey × RValue))
  | .hash entries => .ok entries
  | _ => .error (.typeError "no implicit conversion into Hash")

/-- Models Ruby `Hash#fetch` on our association-list hashes: first entry
whose key is exactly `k` (Ruby hashes have unique keys, so first-match
is exact), `KeyError` when absent. -/
def hfetch : List (RKey × RValue) → RKey → Except RErr RValue
  | [], k => .error (.keyError k)
  | (k', v) :: rest, k => if k' = k then .ok v else hfetch rest k

/-- Arrow `DataType` as constructed by this code base.  The
`FixedSizeList` variant carries its element `Field`
(name/type/nullability, inlined) and the `i32` list size, mirroring
`DataType::FixedSizeList(Arc<Field>, i32)`. -/
inductive ADataType where
  | utf8
  | float32
  | float64
  | int32
  | int64
  | boolean
  | fixedSizeList (itemName : String) (itemType : ADataType) (itemNullable : Bool) (dim : Int)
deriving DecidableEq, Repr

/-- Arrow `Field`: name, data type, nullability. -/
structure AField where
  name : String
  dtype : ADataType
  nullable : Bool
deriving DecidableEq, Repr

/-- Rendering of a data type for the `Unsupported data type: {:?}`
message, matching Rust's `Debug` for the tags this code can reach. -/
def ADataType.debugStr : ADataType → String
  | .utf8 => "Utf8"
  | .float32 => "Float32"
  | .float64 => "Float64"
  | .int32 => "Int32"
  | .int64 => "Int64"
  | .boolean => "Boolean"
  | .fixedSizeList _ _ _ dim => "FixedSizeList(Float32, " ++ toString dim ++ ")"

/-- Value of a Rust `i32` reinterpreted as a `usize`
(sign-extension to 64 bits, two's complement reading), as in
`*list_size as usize`. -/
def usizeOfI32 (d : Int) : Nat := (d % (2 ^ 64)).toNat

/-- Arrow array as built by the transcoder: one typed column.  Scalar
columns carry their values with per-element validity as `Option`; a
fixed-size-list column carries its element field, its `i32` size, the
flat `Float32` backing array, and an optional validity buffer
(`true` = valid). -/
inductive AColumn where
  | utf8Col (vals : List (Option String))
  | float32Col (vals : List (Option Rat))
  | int64Col (vals : List (Option Int))
  | boolCol (vals : List (Option Bool))
  | fslCol (itemName : String) (itemType : ADataType) (itemNullable : Bool)
      (size : Int) (flat : List Rat) (nulls : Option (List Bool))
deriving Repr

/-- Logical length of a column; for a fixed-size-list array arrow
computes `values.len() / size.max(1)`. -/
def AColumn.size : AColumn → Nat
  | .utf8Col vals => vals.length
  | .float32Col vals => vals.length
  | .int64Col vals => vals.length
  | .boolCol vals => vals.length
  | .fslCol _ _ _ dim flat _ => flat.length / (max dim 1).toNat

/-- A `RecordBatch`: schema, columns in schema order, and the row count
(arrow takes it from the first column). -/
structure ARecordBatch where
  schema : List AField
  columns : List AColumn
  numRows : Nat
deriving Repr

/-- Models `RecordBatch::try_new`: arrow rejects an empty column list
and columns of unequal length.  (The schema/column type correspondence
that arrow also checks holds by construction here, since every column is
built from its own field.) -/
def tryNew (schema : List AField) (cols : List AColumn) : Except RErr ARecordBatch :=
  if cols.isEmpty then
    .error (.runtimeError "at least one column must be defined to create a record batch")
  else if schema.length ≠ cols.length then
    .error (.runtimeError "number of columns must match number of fields in schema")
  else
    let n := (cols.headD (.utf8Col [])).size
    if cols.all (fun c => c.size == n) then .ok ⟨schema, cols, n⟩
    else .error (.runtimeError "all columns in a record batch must have the same length")

/-! ## Schema resolver (`schema.rs`, `build_arrow_schema`) -/

/-- Resolution of one type descriptor, from the body of the
`schema_hash.foreach` closure: a hash descriptor must carry `type:`
(only `"vector"` is recognized, requiring an `i32` `dimension:`); any
other value must convert to one of the six scalar tag strings. -/
def resolveFieldType (value : RValue) : Except RErr ADataType :=
  match value with
  | .hash entries => do
      let tv ← hfetch entries (.sym "type")
      let typeStr ← tryConvertString tv
      match typeStr with
      | "vector" => do
          let dv ← hfetch entries (.sym "dimension")
          let dim ← tryConvertI32 dv
          .ok (.fixedSizeList "item" .float32 true dim)
      | _ => .error (.argError ("Unknown field type: " ++ typeStr))
  | v => do
      let typeStr ← tryConvertString v
      match typeStr with
      | "string" => .ok .utf8
      | "float32" => .ok .float32
      | "float64" => .ok .float64
      | "int32" => .ok .int32
      | "int64" => .ok .int64
      | "boolean" => .ok .boolean
      | t => .error (.argError ("Unknown field type: " ++ t))

/-- Tail of `build_arrow_schema`: iterate the descriptor mapping in
insertion order, pushing one nullable field per entry. -/
def buildSchemaFields : List (String × RValue) → List AField → Except RErr (List AField)
  | [], acc => .ok acc
  | (name, v) :: rest, acc => do
      let dt ← resolveFieldType v
      buildSchemaFields rest (acc ++ [⟨name, dt, true⟩])

/-- Models `build_arrow_schema`: the input mapping is the Ruby schema
hash in insertion order, keys taken as the symbols' names. -/
def build_arrow_schema (input : List (String × RValue)) : Except RErr (List AField) :=
  buildSchemaFields input []

/-! ## Encode (`conversion.rs`, `build_record_batch`) -/

/-- The five per-type accumulator `HashMap`s of `build_record_batch`,
modelled as total functions from field name to accumulated column.  In
the source every `get_mut(..).unwrap()` and `get(..).unwrap()` is
performed at a key that the set-up loop inserted (same schema, same
type match), so reads at inserted keys agree with the source and the
empty default at other keys is never observable. -/
structure Accs where
  columns : String → List (Option String)
  float_columns : String → List (Option Rat)
  int_columns : String → List (Option Int)
  bool_columns : String → List (Option Bool)
  vector_columns : String → List (Option (List Rat))

/-- The accumulator state after the set-up loop: every column empty. -/
def Accs.empty : Accs :=
  ⟨fun _ => [], fun _ => [], fun _ => [], fun _ => [], fun _ => []⟩

/-- Push one element onto the accumulated column at key `k`. -/
def pushAt {α : Type} (m : String → List α) (k : String) (x : α) : String → List α :=
  fun n => if n = k then m n ++ [x] else m n

/-- The dual-representation lookup of lines 41–46: fetch by symbolic
key first, fall back to the plain-string key; the error of the second
fetch is the one reported. -/
def lookupField (item : List (RKey × RValue)) (name : String) : Except RErr RValue :=
  match hfetch item (.sym name) with
  | .ok v => .ok v
  | .error _ => hfetch item (.str name)

/-- One iteration of the inner field loop of `build_record_batch`:
look the field up in the record, then convert and accumulate according
to the field's data type.  `Float64`/`Int32` fields fall into the
source's `_ => {}` arm: the value is fetched but nothing is
accumulated. -/
def processField (n32 : Rat → Rat) (item : List (RKey × RValue)) (a : Accs) (f : AField) :
    Except RErr Accs := do
  let value ← lookupField item f.name
  match f.dtype with
  | .utf8 =>
      match value with
      | .nil => .ok { a with columns := pushAt a.columns f.name none }
      | v => do
          let s ← tryConvertString v
          .ok { a with columns := pushAt a.columns f.name (some s) }
  | .float32 =>
      match value with
      | .nil => .ok { a with float_columns := pushAt a.float_columns f.name none }
      | v => do
          let x ← tryConvertF64 v
          .ok { a with float_columns := pushAt a.float_columns f.name (some (n32 x)) }
  | .int64 =>
      match value with
      | .nil => .ok { a with int_columns := pushAt a.int_columns f.name none }
      | v => do
          let i ← tryConvertI64 v
          .ok { a with int_columns := pushAt a.int_columns f.name (some i) }
  | .boolean =>
      match value with
      | .nil => .ok { a with bool_columns := pushAt a.bool_columns f.name none }
      | v => .ok { a with bool_columns := pushAt a.bool_columns f.name (some v.toBool) }
  | .fixedSizeList _ _ _ _ =>
      match value with
      | .nil => .ok { a with vector_columns := pushAt a.vector_columns f.name none }
      | v => do
          let xs ← tryConvertRArray v
          let vec ← xs.mapM (fun e => (tryConvertF64 e).map n32)
          .ok { a with vector_columns := pushAt a.vector_columns f.name (some vec) }
  | _ => .ok a

/-- The inner field loop of the accumulation phase, over the schema in
order. -/
def processRecord (n32 : Rat → Rat) (item : List (RKey × RValue)) :
    List AField → Accs → Except RErr Accs
  | [], a => .ok a
  | f :: fs, a => do
      let a' ← processField n32 item a f
      processRecord n32 item fs a'

/-- The outer record loop of the accumulation phase: each item must
convert to a hash, then every schema field is processed. -/
def accumulate (n32 : Rat → Rat) (schema : List AField) :
    List RValue → Accs → Except RErr Accs
  | [], a => .ok a
  | item :: rest, a => do
      let entries ← tryConvertRHash item
      let a' ← processRecord n32 entries schema a
      accumulate n32 schema rest a'

/-- Flattening of an accumulated vector column (lines 119–137): each
present vector must have exactly the configured length, a null entry
contributes a window of placeholder zeros; the first offending vector
aborts with the dimension-mismatch error. -/
def flattenVectors (dim : Int) : List (Option (List Rat)) → Except RErr (List Rat)
  | [] => .ok []
  | some vec :: rest =>
      if vec.length ≠ usizeOfI32 dim then
        .error (.argError ("Vector dimension mismatch. Expected " ++ toString dim ++
          ", got " ++ toString vec.length))
      else do
        let tail ← flattenVectors dim rest
        .ok (vec ++ tail)
  | none :: rest => do
      let tail ← flattenVectors dim rest
      .ok (List.replicate (usizeOfI32 dim) 0 ++ tail)

/-- Assembly of one column from the accumulators (lines 99–154).  Note
that the fixed-size-list array is constructed with `None` as its null
buffer (line 144), discarding the validity information collected during
accumulation.  Data types with no accumulator reach the final arm and
fail with `Unsupported data type`. -/
def buildColumn (a : Accs) (f : AField) : Except RErr AColumn :=
  match f.dtype with
  | .utf8 => .ok (.utf8Col (a.columns f.name))
  | .float32 => .ok (.float32Col (a.float_columns f.name))
  | .int64 => .ok (.int64Col (a.int_columns f.name))
  | .boolean => .ok (.boolCol (a.bool_columns f.name))
  | .fixedSizeList inm ity inull dim => do
      let flat ← flattenVectors dim (a.vector_columns f.name)
      .ok (.fslCol inm ity inull dim flat none)
  | dt => .error (.runtimeError ("Unsupported data type: " ++ dt.debugStr))

/-- The assembly loop over the schema, in order, first error aborting. -/
def buildCols (a : Accs) : List AField → Except RErr (List AColumn)
  | [] => .ok []
  | f :: fs => do
      let c ← buildColumn a f
      let rest ← buildCols a fs
      .ok (c :: rest)

/-- Models `build_record_batch`: accumulate all records, assemble the
columns in schema order, and hand them to `RecordBatch::try_new`. -/
def build_record_batch (n32 : Rat → Rat) (data : List RValue) (schema : List AField) :
    Except RErr ARecordBatch := do
  let a ← accumulate n32 schema data Accs.empty
  let cols ← buildCols a schema
  tryNew schema cols

/-! ## Decode (`conversion.rs`, `convert_batch_to_ruby`) -/

/-- Models `RHash#aset`: replace the value of an existing key or append
a fresh one. -/
def aset (doc : List (RKey × RValue)) (k : RKey) (v : RValue) : List (RKey × RValue) :=
  if doc.any (fun p => p.1 = k) then doc.map (fun p => if p.1 = k then (k, v) else p)
  else doc ++ [(k, v)]

/-- Null test of a fixed-size-list array row: with no null buffer every
row is valid; with a buffer, bit `row` decides (`true` = valid). -/
def fslIsNull (nulls : Option (List Bool)) (row : Nat) : Bool :=
  match nulls with
  | none => false
  | some v => !(v.getD row true)

/-- One field of one row of `convert_batch_to_ruby`: dispatch on the
field's data type, downcast the column (a mismatch is the `Failed to
cast` error), emit nil for a null row, else the stored value; a
fixed-size-list row is read as `list_size` floats from the row's window
of the flat backing array; `Float64`/`Int32` fields are skipped. -/
def decodeField (row : Nat) (doc : List (RKey × RValue)) (f : AField) (col : AColumn) :
    Except RErr (List (RKey × RValue)) :=
  match f.dtype, col with
  | .utf8, .utf8Col vals =>
      .ok (aset doc (.sym f.name)
        (match vals.getD row none with
         | none => .nil
         | some s => .str s))
  | .utf8, _ => .error (.runtimeError "Failed to cast to StringArray")
  | .float32, .float32Col vals =>
      .ok (aset doc (.sym f.name)
        (match vals.getD row none with
         | none => .nil
         | some x => .float x))
  | .float32, _ => .error (.runtimeError "Failed to cast to Float32Array")
  | .int64, .int64Col vals =>
      .ok (aset doc (.sym f.name)
        (match vals.getD row none with
         | none => .nil
         | some n => .int n))
  | .int64, _ => .error (.runtimeError "Failed to cast to Int64Array")
  | .boolean, .boolCol vals =>
      .ok (aset doc (.sym f.name)
        (match vals.getD row none with
         | none => .nil
         | some b => .bool b))
  | .boolean, _ => .error (.runtimeError "Failed to cast to BooleanArray")
  | .fixedSizeList _ _ _ dim, .fslCol _ _ _ csize flat nulls =>
      if fslIsNull nulls row then .ok (aset doc (.sym f.name) .nil)
      else
        let window := flat.drop (row * csize.toNat)
        .ok (aset doc (.sym f.name)
          (.array ((List.range dim.toNat).map (fun i => .float (window.getD i 0)))))
  | .fixedSizeList _ _ _ _, _ => .error (.runtimeError "Failed to cast to FixedSizeListArray")
  | _, _ => .ok doc

/-- The per-row column loop of `convert_batch_to_ruby`, over the
schema/column pairs in order. -/
def decodeFields (row : Nat) : List (AField × AColumn) → List (RKey × RValue) →
    Except RErr (List (RKey × RValue))
  | [], doc => .ok doc
  | (f, c) :: rest, doc => do
      let doc' ← decodeField row doc f c
      decodeFields row rest doc'

/-- One row of `convert_batch_to_ruby`: a fresh hash filled field by
field in schema order. -/
def decodeRow (b : ARecordBatch) (row : Nat) : Except RErr (List (RKey × RValue)) :=
  decodeFields row (b.schema.zip b.columns) []

/-- The row loop of `convert_batch_to_ruby`. -/
def decodeRows (b : ARecordBatch) : List Nat → Except RErr (List (List (RKey × RValue)))
  | [] => .ok []
  | r :: rs => do
      let doc ← decodeRow b r
      let rest ← decodeRows b rs
      .ok (doc :: rest)

/-- Models `convert_batch_to_ruby`: one record per row index, in row
order. -/
def convert_batch_to_ruby (b : ARecordBatch) : Except RErr (List (List (RKey × RValue))) :=
  decodeRows b (List.range b.numRows)

/-! ## Claim-side definitions

The definitions below transcribe the wording of the spec's claims (not
the source); the theorems compare them with the embedded code. -/

/-- Success test for a result. -/
def exOk {ε α : Type} : Except ε α → Bool
  | .ok _ => true
  | .error _ => false

/-- The six recognized bare scalar tags, per the claim's table. -/
def recognizedTag : String → Bool
  | "string" => true
  | "float32" => true
  | "float64" => true
  | "int32" => true
  | "int64" => true
  | "boolean" => true
  | _ => false

/-- Following the words of claim C4: the descriptor shapes the claim
speaks about and the field type each is claimed to resolve to — a bare
tag among the six scalar tags, or a structured descriptor whose `type:`
is `"vector"` with an `i32` integer `dimension:`, which is claimed to
yield a fixed-size list of that dimension with `float32` elements. -/
inductive ClaimDescr : RValue → ADataType → Prop where
  | string : ClaimDescr (.str "string") .utf8
  | float32 : ClaimDescr (.str "float32") .float32
  | float64 : ClaimDescr (.str "float64") .float64
  | int32 : ClaimDescr (.str "int32") .int32
  | int64 : ClaimDescr (.str "int64") .int64
  | boolean : ClaimDescr (.str "boolean") .boolean
  | vector (entries : List (RKey × RValue)) (d : Int)
      (ht : hfetch entries (.sym "type") = .ok (.str "vector"))
      (hd : hfetch entries (.sym "dimension") = .ok (.int d))
      (h1 : i32Min ≤ d) (h2 : d ≤ i32Max) :
      ClaimDescr (.hash entries) (.fixedSizeList "item" .float32 true d)

/-- Entries of a record value (defined when the record is a hash). -/
def entriesOf : RValue → List (RKey × RValue)
  | .hash entries => entries
  | _ => []

/-- The field value a record carries for `name` under the dual-key
lookup, defaulting to nil (used only where the lookup is known to
succeed). -/
def fetchValD (entries : List (RKey × RValue)) (name : String) : RValue :=
  match lookupField entries name with
  | .ok v => v
  | .error _ => .nil

/-- Validation of one value against one field type, per claim C1's
reading of the spec's coercion table: nulls are always allowed; strings
must be strings; `float32` accepts numerics; `int64` accepts exact
integers (within `i64` range); `boolean` accepts booleans; a vector must
be a sequence of numerics of exactly the configured dimension. -/
def validValue (dtype : ADataType) (v : RValue) : Bool :=
  match dtype, v with
  | _, .nil => true
  | .utf8, .str _ => true
  | .float32, v => (numValue v).isSome
  | .int64, .int n => decide (i64Min ≤ n ∧ n ≤ i64Max)
  | .boolean, .bool _ => true
  | .fixedSizeList _ _ _ dim, .array xs =>
      xs.all (fun e => (numValue e).isSome) && xs.length == usizeOfI32 dim
  | _, _ => false

/-- Validation of one record against a schema: the record is a hash and
every schema field is present (under either key representation) with a
valid value. -/
def validRecord (schema : List AField) (item : RValue) : Bool :=
  match item with
  | .hash entries =>
      schema.all (fun f =>
        match lookupField entries f.name with
        | .ok v => validValue f.dtype v
        | .error _ => false)
  | _ => false

/-- Does the record supply a null for some vector field of the schema? -/
def hasNullVector (schema : List AField) (item : RValue) : Bool :=
  schema.any (fun f =>
    match f.dtype, lookupField (entriesOf item) f.name with
    | .fixedSizeList _ _ _ _, .ok .nil => true
    | _, _ => false)

/-- Field types the encoder supports, with the vector dimension
constraints under which a nonempty batch is well-formed (`1 ≤ dim`, and
`dim` an `i32` as the resolver guarantees). -/
def encodableField : AField → Bool
  | ⟨_, .utf8, _⟩ => true
  | ⟨_, .float32, _⟩ => true
  | ⟨_, .int64, _⟩ => true
  | ⟨_, .boolean, _⟩ => true
  | ⟨_, .fixedSizeList _ _ _ dim, _⟩ => decide (1 ≤ dim ∧ dim ≤ i32Max)
  | _ => false

/-- Field types the encoder can assemble at all (claim C9's degenerate
case needs no dimension constraint: an empty batch is well-formed for
any vector size). -/
def encodableType : ADataType → Bool
  | .utf8 => true
  | .float32 => true
  | .int64 => true
  | .boolean => true
  | .fixedSizeList _ _ _ _ => true
  | _ => false

/-- The empty column the encoder assembles for a field when there are
no records (the `float64`/`int32` arms are unreachable under
`encodableType`). -/
def emptyColumn (f : AField) : AColumn :=
  match f.dtype with
  | .utf8 => .utf8Col []
  | .float32 => .float32Col []
  | .int64 => .int64Col []
  | .boolean => .boolCol []
  | .fixedSizeList inm ity inull dim => .fslCol inm ity inull dim [] none
  | _ => .utf8Col []

/-- Normalization of one input value at one field type, per claim C1:
scalars normalize to themselves except that numerics at a `float32`
field narrow to a float; a vector normalizes to the sequence of its
narrowed float elements; nil stays nil. -/
def normalizeValue (n32 : Rat → Rat) (dtype : ADataType) (v : RValue) : RValue :=
  match dtype, v with
  | _, .nil => .nil
  | .float32, v => .float (n32 ((numValue v).getD 0))
  | .fixedSizeList _ _ _ _, .array xs =>
      .array (xs.map (fun e => .float (n32 ((numValue e).getD 0))))
  | _, v => v

/-- Normalization of one record, per claim C1: one entry per schema
field in schema order, under the symbolic key, with the normalized
value. -/
def normalizeRecord (n32 : Rat → Rat) (schema : List AField) (item : RValue) :
    List (RKey × RValue) :=
  schema.map (fun f => (RKey.sym f.name, normalizeValue n32 f.dtype (fetchValD (entriesOf item) f.name)))

/-- Stored representation of a valid string-field value. -/
def sStr : RValue → Option String
  | .str s => some s
  | _ => none

/-- Stored representation of a valid float32-field value. -/
def sFloat (n32 : Rat → Rat) (v : RValue) : Option Rat :=
  (numValue v).map n32

/-- Stored representation of a valid int64-field value. -/
def sInt : RValue → Option Int
  | .int n => some n
  | _ => none

/-- Stored representation of a valid boolean-field value. -/
def sBool : RValue → Option Bool
  | .bool b => some b
  | _ => none

/-- Stored representation of a valid vector-field value. -/
def sVec (n32 : Rat → Rat) : RValue → Option (List Rat)
  | .array xs => some (xs.map (fun e => n32 ((numValue e).getD 0)))
  | _ => none

/-- The pure effect of one successful `processField` step on the
accumulators. -/
def pushField (n32 : Rat → Rat) (entries : List (RKey × RValue)) (a : Accs) (f : AField) : Accs :=
  match f.dtype with
  | .utf8 => { a with columns := pushAt a.columns f.name (sStr (fetchValD entries f.name)) }
  | .float32 =>
      { a with float_columns := pushAt a.float_columns f.name (sFloat n32 (fetchValD entries f.name)) }
  | .int64 => { a with int_columns := pushAt a.int_columns f.name (sInt (fetchValD entries f.name)) }
  | .boolean =>
      { a with bool_columns := pushAt a.bool_columns f.name (sBool (fetchValD entries f.name)) }
  | .fixedSizeList _ _ _ _ =>
      { a with vector_columns := pushAt a.vector_columns f.name (sVec n32 (fetchValD entries f.name)) }
  | _ => a

/-- The column the encoder assembles for field `f` from a valid record
sequence with no null vectors. -/
def expectedCol (n32 : Rat → Rat) (data : List RValue) (f : AField) : AColumn :=
  match f.dtype with
  | .utf8 => .utf8Col (data.map (fun it => sStr (fetchValD (entriesOf it) f.name)))
  | .float32 => .float32Col (data.map (fun it => sFloat n32 (fetchValD (entriesOf it) f.name)))
  | .int64 => .int64Col (data.map (fun it => sInt (fetchValD (entriesOf it) f.name)))
  | .boolean => .boolCol (data.map (fun it => sBool (fetchValD (entriesOf it) f.name)))
  | .fixedSizeList inm ity inull dim =>
      .fslCol inm ity inull dim
        ((data.map (fun it => (sVec n32 (fetchValD (entriesOf it) f.name)).getD [])).flatten) none
  | _ => .utf8Col []

/-- The pure effect of one successful record on the accumulators: one
push per schema field, in schema order. -/
def pushItem (n32 : Rat → Rat) (schema : List AField) (a : Accs) (item : RValue) : Accs :=
  schema.foldl (pushField n32 (entriesOf item)) a

/-- First accumulated vector whose length differs from the configured
window, with its length (drives the assembly-phase dimension error). -/
def firstBadLen (d : Nat) : List (Option (List Rat)) → Option Nat
  | [] => none
  | some vec :: rest => if vec.length ≠ d then some vec.length else firstBadLen d rest
  | none :: rest => firstBadLen d rest

/-! ## Theorems -/

/-- An `Except` that tests ok is an ok. -/
theorem exOk_eq_true {ε α : Type} {x : Except ε α} (h : exOk x = true) : ∃ a, x = .ok a := by
  cases x with
  | ok a => exact ⟨a, rfl⟩
  | error e => simp [exOk] at h

/-- Claim C2 (code bug): encoding a record whose vector field is the
null marker produces a fixed-size-list column whose null buffer is
`None` — the validity collected during accumulation is discarded at
line 144 — so the row is valid and carries the placeholder zeros, and
decoding emits `[0.0, 0.0]` for it instead of the null marker. -/
theorem vector_null_row_encodes_as_valid_zeros :
    build_record_batch id [.hash [(.sym "v", .nil)]]
        [⟨"v", .fixedSizeList "item" .float32 true 2, true⟩] =
      .ok ⟨[⟨"v", .fixedSizeList "item" .float32 true 2, true⟩],
        [.fslCol "item" .float32 true 2 [0, 0] none], 1⟩ ∧
    (build_record_batch id [.hash [(.sym "v", .nil)]]
        [⟨"v", .fixedSizeList "item" .float32 true 2, true⟩]).bind convert_batch_to_ruby =
      .ok [[(.sym "v", .array [.float 0, .float 0])]] :=
  ⟨rfl, rfl⟩

/-- Claim C7 (counterexample): a string supplied for a boolean field
does not make encode fail — it is accepted and stored as `true`. -/
theorem boolean_truthiness_cex :
    build_record_batch id [.hash [(.sym "flag", .str "yes")]] [⟨"flag", .boolean, true⟩] =
      .ok ⟨[⟨"flag", .boolean, true⟩], [.boolCol [some true]], 1⟩ :=
  rfl

/-- Claim C7 (amended): any non-nil value supplied for a boolean field
is accepted and coerced by Ruby truthiness (only `false` is stored as
`false`; every other non-nil value is stored as `true`); no type error
is possible for a boolean field. -/
theorem boolean_field_truthiness (n32 : Rat → Rat) (v : RValue) (h : v ≠ .nil) :
    build_record_batch n32 [.hash [(.sym "flag", v)]] [⟨"flag", .boolean, true⟩] =
      .ok ⟨[⟨"flag", .boolean, true⟩], [.boolCol [some v.toBool]], 1⟩ := by
  cases v with
  | nil => exact absurd rfl h
  | bool b => cases b <;> rfl
  | int n => rfl
  | float q => rfl
  | str s => rfl
  | array xs => rfl
  | hash entries => rfl

/-- Witness for the amended claim C7 at the concrete input. -/
theorem boolean_field_truthiness_witness :
    (RValue.str "yes" ≠ .nil) ∧
    build_record_batch id [.hash [(.sym "flag", .str "yes")]] [⟨"flag", .boolean, true⟩] =
      .ok ⟨[⟨"flag", .boolean, true⟩], [.boolCol [some (RValue.str "yes").toBool]], 1⟩ :=
  And.intro (fun h => nomatch h)
    (boolean_field_truthiness id (.str "yes") (fun h => nomatch h))

/-- Resolution succeeds as the claim describes on every descriptor of a
claim-recognized shape: one step of the claimed table. -/
theorem resolveFieldType_of_claimDescr {v : RValue} {dt : ADataType} (h : ClaimDescr v dt) :
    resolveFieldType v = .ok dt := by
  cases h with
  | string => rfl
  | float32 => rfl
  | float64 => rfl
  | int32 => rfl
  | int64 => rfl
  | boolean => rfl
  | vector entries d ht hd h1 h2 =>
      simp [resolveFieldType, ht, hd, tryConvertString, tryConvertI32, bind, Except.bind, h1, h2]

/-- The resolver loop maps claim-recognized descriptors positionally,
appending to its accumulator. -/
theorem buildSchemaFields_claim {input : List (String × RValue)} {fields : List AField}
    (h : List.Forall₂ (fun p f => p.1 = f.name ∧ f.nullable = true ∧ ClaimDescr p.2 f.dtype)
      input fields) :
    ∀ acc, buildSchemaFields input acc = .ok (acc ++ fields) := by
  induction h with
  | nil => intro acc; simp [buildSchemaFields]
  | @cons p f ps fs hpf hrest ih =>
      intro acc
      obtain ⟨hname, hnull, hdescr⟩ := hpf
      have hres : resolveFieldType p.2 = .ok f.dtype := resolveFieldType_of_claimDescr hdescr
      obtain ⟨pn, pv⟩ := p
      obtain ⟨fn, fd, fb⟩ := f
      simp only at hname hnull hres
      subst hname hnull
      simp only [buildSchemaFields, hres, bind, Except.bind]
      rw [ih]
      simp

/-- Claim C4: the resolver preserves insertion order, maps each of the
six bare scalar tags to its scalar type, maps a structured
`{type: "vector", dimension: d}` descriptor to a fixed-size-list field
of dimension `d` with `float32` `item` elements, and marks every
resulting field nullable. -/
theorem schema_resolver_fidelity (input : List (String × RValue)) (fields : List AField)
    (h : List.Forall₂ (fun p f => p.1 = f.name ∧ f.nullable = true ∧ ClaimDescr p.2 f.dtype)
      input fields) :
    build_arrow_schema input = .ok fields := by
  simpa [build_arrow_schema] using buildSchemaFields_claim h []

/-- Witness for claim C4 at the spec's two example descriptors. -/
theorem schema_resolver_fidelity_witness :
    build_arrow_schema [("score", .str "float32"),
      ("embedding", .hash [(.sym "type", .str "vector"), (.sym "dimension", .int 4)])] =
      .ok [⟨"score", .float32, true⟩, ⟨"embedding", .fixedSizeList "item" .float32 true 4, true⟩] :=
  schema_resolver_fidelity _ _
    (List.Forall₂.cons ⟨rfl, rfl, ClaimDescr.float32⟩
      (List.Forall₂.cons ⟨rfl, rfl, ClaimDescr.vector _ 4 rfl rfl (by decide) (by decide)⟩
        List.Forall₂.nil))

/-- A bare tag outside the six recognized scalar tags resolves to the
`Unknown field type` error naming the tag. -/
theorem resolveFieldType_unknown_bare (tag : String) (h : recognizedTag tag = false) :
    resolveFieldType (.str tag) = .error (.argError ("Unknown field type: " ++ tag)) := by
  simp only [resolveFieldType, tryConvertString, bind, Except.bind]
  split <;> simp_all [recognizedTag]

/-- A structured descriptor whose `type:` string differs from
`"vector"` resolves to the `Unknown field type` error naming it. -/
theorem resolveFieldType_unknown_structured (entries : List (RKey × RValue)) (tag : String)
    (ht : hfetch entries (.sym "type") = .ok (.str tag)) (hne : tag ≠ "vector") :
    resolveFieldType (.hash entries) = .error (.argError ("Unknown field type: " ++ tag)) := by
  simp only [resolveFieldType, ht, tryConvertString, bind, Except.bind]

/-- The resolver loop propagates the error of the first failing
descriptor once every earlier descriptor resolves. -/
theorem buildSchemaFields_err {e : RErr} (pre : List (String × RValue)) (name : String)
    (bad : RValue) (rest : List (String × RValue))
    (hpre : ∀ p ∈ pre, exOk (resolveFieldType p.2) = true)
    (hbad : resolveFieldType bad = .error e) :
    ∀ acc, buildSchemaFields (pre ++ (name, bad) :: rest) acc = .error e := by
  induction pre with
  | nil => intro acc; simp [buildSchemaFields, hbad, bind, Except.bind]
  | cons p ps ih =>
      intro acc
      obtain ⟨dt, hdt⟩ := exOk_eq_true (hpre p (List.mem_cons_self p ps))
      obtain ⟨pn, pv⟩ := p
      simp only at hdt
      simp only [List.cons_append, buildSchemaFields, hdt, bind, Except.bind]
      exact ih (fun r hr => hpre r (List.mem_cons_of_mem _ hr)) _

/-- Claim C5: a descriptor mapping whose first failing entry carries an
unrecognized bare tag, or a structured descriptor whose `type:` string
is not `"vector"`, makes the resolver fail with the `Unknown field
type` error naming the offending tag, returning no schema. -/
theorem unknown_type_rejection (pre : List (String × RValue)) (name : String) (bad : RValue)
    (rest : List (String × RValue)) (tag : String)
    (hpre : ∀ p ∈ pre, exOk (resolveFieldType p.2) = true)
    (hbad : (bad = .str tag ∧ recognizedTag tag = false) ∨
      (∃ entries, bad = .hash entries ∧ hfetch entries (.sym "type") = .ok (.str tag) ∧
        tag ≠ "vector")) :
    build_arrow_schema (pre ++ (name, bad) :: rest) =
      .error (.argError ("Unknown field type: " ++ tag)) := by
  have hb : resolveFieldType bad = .error (.argError ("Unknown field type: " ++ tag)) := by
    rcases hbad with ⟨rfl, hr⟩ | ⟨entries, rfl, ht, hne⟩
    · exact resolveFieldType_unknown_bare tag hr
    · exact resolveFieldType_unknown_structured entries tag ht hne
  simpa [build_arrow_schema] using buildSchemaFields_err pre name bad rest hpre hb []

/-- Witness for claim C5 at the spec's example `resolve({"x": "currency"})`. -/
theorem unknown_type_rejection_witness :
    build_arrow_schema [("x", .str "currency")] =
      .error (.argError ("Unknown field type: " ++ "currency")) :=
  unknown_type_rejection [] "x" (.str "currency") [] "currency" (by simp)
    (Or.inl ⟨rfl, rfl⟩)

/-- Claim C8 (counterexample): the Ruby float 3/2 supplied for an int64
field does not make encode fail — it is truncated and stored as 1. -/
theorem int64_truncation_cex :
    build_record_batch id [.hash [(.sym "n", .float (mkRat 3 2))]] [⟨"n", .int64, true⟩] =
      .ok ⟨[⟨"n", .int64, true⟩], [.int64Col [some 1]], 1⟩ :=
  rfl

/-- Claim C8 (amended): a Ruby float supplied for an int64 field is
accepted whenever its truncation toward zero fits in `i64`, storing the
truncated value; a fractional part is dropped, not rejected. -/
theorem int64_field_truncates_floats (n32 : Rat → Rat) (q : Rat)
    (h : i64Min ≤ ratTrunc q ∧ ratTrunc q ≤ i64Max) :
    build_record_batch n32 [.hash [(.sym "n", .float q)]] [⟨"n", .int64, true⟩] =
      .ok ⟨[⟨"n", .int64, true⟩], [.int64Col [some (ratTrunc q)]], 1⟩ := by
  have h1 : tryConvertI64 (.float q) = .ok (ratTrunc q) := by
    simp only [tryConvertI64]
    exact if_pos h
  simp [build_record_batch, accumulate, processRecord, processField, lookupField, hfetch,
    tryConvertRHash, h1, buildCols, buildColumn, tryNew, Accs.empty, pushAt, AColumn.size,
    bind, Except.bind]

/-- Witness for the amended claim C8 at the concrete input 3/2. -/
theorem int64_field_truncates_floats_witness :
    (i64Min ≤ ratTrunc (mkRat 3 2) ∧ ratTrunc (mkRat 3 2) ≤ i64Max) ∧
    build_record_batch id [.hash [(.sym "n", .float (mkRat 3 2))]] [⟨"n", .int64, true⟩] =
      .ok ⟨[⟨"n", .int64, true⟩], [.int64Col [some (ratTrunc (mkRat 3 2))]], 1⟩ :=
  ⟨by decide, int64_field_truncates_floats id (mkRat 3 2) (by decide)⟩

/-- Every empty column has zero logical length. -/
theorem emptyColumn_size (f : AField) : (emptyColumn f).size = 0 := by
  obtain ⟨nm, dt, nb⟩ := f
  cases dt <;> simp [emptyColumn, AColumn.size]

/-- Assembly from empty accumulators yields the empty column for every
encodable field type. -/
theorem buildColumn_empty (f : AField) (h : encodableType f.dtype = true) :
    buildColumn Accs.empty f = .ok (emptyColumn f) := by
  obtain ⟨nm, dt, nb⟩ := f
  cases dt <;>
    simp_all [buildColumn, emptyColumn, encodableType, Accs.empty, flattenVectors, bind,
      Except.bind]

/-- The assembly loop from empty accumulators yields the empty columns
in schema order. -/
theorem buildCols_empty (schema : List AField) (h : ∀ f ∈ schema, encodableType f.dtype = true) :
    buildCols Accs.empty schema = .ok (schema.map emptyColumn) := by
  induction schema with
  | nil => rfl
  | cons f fs ih =>
      simp only [buildCols, buildColumn_empty f (h f (by simp)), bind, Except.bind,
        ih (fun g hg => h g (by simp [hg])), List.map_cons]

/-- Claim C9 (counterexample): the schema `{x: float64}` is valid — the
resolver accepts it — yet encoding the empty record sequence against it
fails with the `Unsupported data type` error instead of producing a
zero-row batch. -/
theorem empty_encode_float64_cex :
    build_arrow_schema [("x", .str "float64")] = .ok [⟨"x", .float64, true⟩] ∧
    build_record_batch id [] [⟨"x", .float64, true⟩] =
      .error (.runtimeError "Unsupported data type: Float64") :=
  ⟨rfl, rfl⟩

/-- Claim C9 (amended): for every nonempty schema all of whose field
types the encoder supports (string, float32, int64, boolean, vector),
encoding the empty record sequence succeeds with a zero-row batch of
empty columns, and decoding that batch yields the empty record sequence
without error. -/
theorem empty_roundtrip (n32 : Rat → Rat) (schema : List AField) (h1 : schema ≠ [])
    (h2 : ∀ f ∈ schema, encodableType f.dtype = true) :
    build_record_batch n32 [] schema = .ok ⟨schema, schema.map emptyColumn, 0⟩ ∧
    convert_batch_to_ruby ⟨schema, schema.map emptyColumn, 0⟩ = .ok [] := by
  constructor
  · obtain ⟨f, fs, rfl⟩ : ∃ f fs, schema = f :: fs := by
      cases schema with
      | nil => exact absurd rfl h1
      | cons f fs => exact ⟨f, fs, rfl⟩
    simp only [build_record_batch, accumulate, bind, Except.bind]
    rw [buildCols_empty _ h2]
    simp only [tryNew, List.map_cons, List.isEmpty_cons, List.length_cons, List.length_map,
      List.headD_cons, emptyColumn_size]
    have hall : ∀ c ∈ (emptyColumn f :: fs.map emptyColumn), (c.size == 0) = true := by
      intro c hc
      rcases List.mem_cons.mp hc with rfl | hc
      · simp [emptyColumn_size]
      · obtain ⟨g, _, rfl⟩ := List.mem_map.mp hc
        simp [emptyColumn_size]
    simp [List.all_eq_true.mpr hall]
  · rfl

/-- Witness for the amended claim C9 at a one-field string schema. -/
theorem empty_roundtrip_witness :
    build_record_batch id [] [⟨"t", .utf8, true⟩] =
      .ok ⟨[⟨"t", .utf8, true⟩], [⟨"t", .utf8, true⟩].map emptyColumn, 0⟩ ∧
    convert_batch_to_ruby ⟨[⟨"t", .utf8, true⟩], [⟨"t", .utf8, true⟩].map emptyColumn, 0⟩ =
      .ok [] :=
  empty_roundtrip id [⟨"t", .utf8, true⟩] (fun h => nomatch h) (by decide)

/-- Assembly of a `Float64` or `Int32` field always fails with the
`Unsupported data type` error. -/
theorem buildColumn_unsupported (a : Accs) (f : AField)
    (hf : f.dtype = .float64 ∨ f.dtype = .int32) :
    buildColumn a f = .error (.runtimeError ("Unsupported data type: " ++ f.dtype.debugStr)) := by
  obtain ⟨nm, dt, nb⟩ := f
  rcases hf with h | h <;> (simp only at h; subst h; rfl)

/-- The assembly loop cannot succeed on a schema containing a
`Float64` or `Int32` field. -/
theorem buildCols_err_of_unsupported (a : Accs) (schema : List AField)
    (h : ∃ f ∈ schema, f.dtype = .float64 ∨ f.dtype = .int32) :
    exOk (buildCols a schema) = false := by
  induction schema with
  | nil => simp at h
  | cons g gs ih =>
      obtain ⟨f, hf, hft⟩ := h
      rcases List.mem_cons.mp hf with rfl | hmem
      · simp [buildCols, buildColumn_unsupported a f hft, bind, Except.bind, exOk]
      · cases hb : buildColumn a g with
        | error e => simp [buildCols, hb, bind, Except.bind, exOk]
        | ok c =>
            have hrec := ih ⟨f, hmem, hft⟩
            cases hr : buildCols a gs with
            | error e => simp [buildCols, hb, hr, bind, Except.bind, exOk]
            | ok cs => rw [hr] at hrec; simp [exOk] at hrec

/-- The assembly loop from empty accumulators reaches the first
`Float64`/`Int32` field and reports it. -/
theorem buildCols_empty_err (pre post : List AField) (f : AField)
    (hf : f.dtype = .float64 ∨ f.dtype = .int32)
    (hpre : ∀ g ∈ pre, encodableType g.dtype = true) :
    buildCols Accs.empty (pre ++ f :: post) =
      .error (.runtimeError ("Unsupported data type: " ++ f.dtype.debugStr)) := by
  induction pre with
  | nil => simp [buildCols, buildColumn_unsupported Accs.empty f hf, bind, Except.bind]
  | cons g gs ih =>
      have hrec := ih (fun r hr => hpre r (by simp [hr]))
      simp only [List.cons_append, buildCols, buildColumn_empty g (hpre g (by simp)), bind,
        Except.bind, List.append_eq]
      rw [hrec]

/-- Claim C10: a schema containing a `float64` or `int32` field — both
accepted by the resolver — can never be encoded: encode fails on every
input; on the empty record sequence (where the record loop cannot fail
first) the failure is the assembly-stage `Unsupported data type` error
naming the field's type; and decode's per-field step skips such a field
entirely, leaving the output record untouched. -/
theorem unsupported_types_never_encode (n32 : Rat → Rat) (pre post : List AField) (f : AField)
    (hf : f.dtype = .float64 ∨ f.dtype = .int32)
    (hpre : ∀ g ∈ pre, encodableType g.dtype = true) :
    (∀ data, exOk (build_record_batch n32 data (pre ++ f :: post)) = false) ∧
    build_record_batch n32 [] (pre ++ f :: post) =
      .error (.runtimeError ("Unsupported data type: " ++ f.dtype.debugStr)) ∧
    (∀ row doc col, decodeField row doc f col = .ok doc) := by
  refine ⟨?_, ?_, ?_⟩
  · intro data
    cases ha : accumulate n32 (pre ++ f :: post) data Accs.empty with
    | error e => simp [build_record_batch, ha, bind, Except.bind, exOk]
    | ok a =>
        have hc := buildCols_err_of_unsupported a (pre ++ f :: post) ⟨f, by simp, hf⟩
        cases hb : buildCols a (pre ++ f :: post) with
        | error e => simp [build_record_batch, ha, hb, bind, Except.bind, exOk]
        | ok cs => rw [hb] at hc; simp [exOk] at hc
  · simp only [build_record_batch, accumulate, bind, Except.bind]
    rw [buildCols_empty_err pre post f hf hpre]
  · intro row doc col
    obtain ⟨nm, dt, nb⟩ := f
    rcases hf with h | h <;> (simp only at h; subst h; cases col <;> rfl)

/-- Witness for claim C10 at the one-field `float64` schema. -/
theorem unsupported_types_never_encode_witness :
    exOk (build_record_batch id [.hash []] ([] ++ ⟨"x", .float64, true⟩ :: [])) = false ∧
    build_record_batch id [] ([] ++ ⟨"x", .float64, true⟩ :: []) =
      .error (.runtimeError ("Unsupported data type: " ++ (ADataType.float64).debugStr)) ∧
    decodeField 0 [] ⟨"x", .float64, true⟩ (.utf8Col []) = .ok [] :=
  have H := unsupported_types_never_encode id [] [] ⟨"x", .float64, true⟩ (Or.inl rfl)
    (fun g hg => absurd hg (List.not_mem_nil g))
  ⟨H.1 [.hash []], H.2.1, H.2.2 0 [] (.utf8Col [])⟩

/-- Fetch on a hash none of whose keys is `k` raises `KeyError`. -/
theorem hfetch_not_found (l : List (RKey × RValue)) (k : RKey) (h : ∀ p ∈ l, p.1 ≠ k) :
    hfetch l k = .error (.keyError k) := by
  induction l with
  | nil => rfl
  | cons p ps ih =>
      obtain ⟨k', v⟩ := p
      have h1 : ¬(k' = k) := h (k', v) (by simp)
      simp only [hfetch, if_neg h1]
      exact ih (fun r hr => h r (by simp [hr]))

/-- A successful `processField` step implies the dual-key lookup
succeeded. -/
theorem processField_ok_lookup {n32 : Rat → Rat} {item : List (RKey × RValue)} {a a' : Accs}
    {f : AField} (h : processField n32 item a f = .ok a') :
    ∃ v, lookupField item f.name = .ok v := by
  cases hl : lookupField item f.name with
  | ok v => exact ⟨v, rfl⟩
  | error e =>
      simp only [processField, hl, bind, Except.bind] at h
      exact nomatch h

/-- A successful record step implies the dual-key lookup succeeded for
every schema field. -/
theorem processRecord_ok_lookup {n32 : Rat → Rat} {item : List (RKey × RValue)}
    {fields : List AField} {a a' : Accs} (h : processRecord n32 item fields a = .ok a') :
    ∀ f ∈ fields, ∃ v, lookupField item f.name = .ok v := by
  induction fields generalizing a with
  | nil => intro f hf; simp at hf
  | cons g gs ih =>
      intro f hf
      cases hp : processField n32 item a g with
      | error e =>
          simp only [processRecord, hp, bind, Except.bind] at h
          exact nomatch h
      | ok a₁ =>
          simp only [processRecord, hp, bind, Except.bind] at h
          rcases List.mem_cons.mp hf with rfl | hmem
          · exact processField_ok_lookup hp
          · exact ih h f hmem

/-- A successful accumulation implies every record is a hash in which
every schema field's dual-key lookup succeeds. -/
theorem accumulate_ok_lookup {n32 : Rat → Rat} {schema : List AField} {data : List RValue}
    {a a' : Accs} (h : accumulate n32 schema data a = .ok a') :
    ∀ item ∈ data, ∃ entries, tryConvertRHash item = .ok entries ∧
      ∀ f ∈ schema, ∃ v, lookupField entries f.name = .ok v := by
  induction data generalizing a with
  | nil => intro it hit; simp at hit
  | cons x xs ih =>
      intro it hit
      cases hx : tryConvertRHash x with
      | error e =>
          simp only [accumulate, hx, bind, Except.bind] at h
          exact nomatch h
      | ok entries =>
          simp only [accumulate, hx, bind, Except.bind] at h
          cases hp : processRecord n32 entries schema a with
          | error e =>
              simp only [hp, bind, Except.bind] at h
              exact nomatch h
          | ok a₁ =>
              simp only [hp, bind, Except.bind] at h
              rcases List.mem_cons.mp hit with rfl | hmem
              · exact ⟨entries, hx, processRecord_ok_lookup hp⟩
              · exact ih h it hmem

/-- A successful encode implies accumulation succeeded. -/
theorem build_ok_accumulate {n32 : Rat → Rat} {data : List RValue} {schema : List AField}
    {batch : ARecordBatch} (h : build_record_batch n32 data schema = .ok batch) :
    ∃ a, accumulate n32 schema data Accs.empty = .ok a := by
  cases ha : accumulate n32 schema data Accs.empty with
  | ok a => exact ⟨a, rfl⟩
  | error e =>
      simp only [build_record_batch, ha, bind, Except.bind] at h
      exact nomatch h

/-- Claim C6: the field lookup tries the symbolic key first and falls
back to the plain-string key, either representation alone yielding the
value; when neither key is present the lookup (and hence encode) fails
with the `KeyError` of the missing field — and a successful encode
certifies that every record carried every schema field under one of the
two key representations, so an omitted field is never defaulted to
null. -/
theorem dual_key_lookup_and_missing_field (name : String) :
    (∀ entries v, hfetch entries (.sym name) = .ok v → lookupField entries name = .ok v) ∧
    (∀ entries e v, hfetch entries (.sym name) = .error e →
      hfetch entries (.str name) = .ok v → lookupField entries name = .ok v) ∧
    (∀ v, lookupField [(.sym name, v)] name = .ok v ∧
      lookupField [(.str name, v)] name = .ok v) ∧
    (∀ entries, (∀ p ∈ entries, p.1 ≠ .sym name ∧ p.1 ≠ .str name) →
      lookupField entries name = .error (.keyError (.str name))) ∧
    (∀ n32 data schema batch, build_record_batch n32 data schema = .ok batch →
      ∀ item ∈ data, ∃ entries, tryConvertRHash item = .ok entries ∧
        ∀ f ∈ schema, ∃ v, lookupField entries f.name = .ok v) := by
  refine ⟨?_, ?_, ?_, ?_, ?_⟩
  · intro entries v h
    simp [lookupField, h]
  · intro entries e v h1 h2
    simp [lookupField, h1, h2]
  · intro v
    constructor <;> simp [lookupField, hfetch]
  · intro entries hall
    have h1 := hfetch_not_found entries (.sym name) (fun p hp => (hall p hp).1)
    have h2 := hfetch_not_found entries (.str name) (fun p hp => (hall p hp).2)
    simp [lookupField, h1, h2]
  · intro n32 data schema batch hb item hit
    obtain ⟨a, ha⟩ := build_ok_accumulate hb
    exact accumulate_ok_lookup ha item hit

/-- Witness for claim C6: both key representations resolve, absence is
a key error, and a successful concrete encode certifies presence. -/
theorem dual_key_lookup_witness :
    lookupField [(.sym "t", .int 1)] "t" = .ok (.int 1) ∧
    lookupField [(.str "t", .int 2)] "t" = .ok (.int 2) ∧
    lookupField [] "t" = .error (.keyError (.str "t")) ∧
    (∃ entries, tryConvertRHash (.hash [(.sym "t", .str "a")]) = .ok entries ∧
      ∀ f ∈ [AField.mk "t" .utf8 true], ∃ v, lookupField entries f.name = .ok v) :=
  have H := dual_key_lookup_and_missing_field "t"
  ⟨H.1 [(.sym "t", .int 1)] (.int 1) rfl,
   H.2.1 [(.str "t", .int 2)] (.keyError (.sym "t")) (.int 2) rfl rfl,
   H.2.2.2.1 [] (by simp),
   H.2.2.2.2 id [.hash [(.sym "t", .str "a")]] [⟨"t", .utf8, true⟩]
     ⟨[⟨"t", .utf8, true⟩], [.utf8Col [some "a"]], 1⟩ rfl (.hash [(.sym "t", .str "a")])
     (by simp)⟩

/-- Claim C3 (counterexample): the first record's vector has length 1
against dimension 2, yet encode reports the second record's type error
— the dimension check is deferred to assembly, after the record loop,
so it does not take precedence over errors from later records. -/
theorem vector_dim_error_deferred_cex :
    build_record_batch id [.hash [(.sym "v", .array [.int 1])], .hash [(.sym "v", .str "bad")]]
        [⟨"v", .fixedSizeList "item" .float32 true 2, true⟩] =
      .error (.typeError "no implicit conversion into Array") :=
  rfl

/-- Flattening reports the first accumulated vector of the wrong
length. -/
theorem flattenVectors_err (dim : Int) (vals : List (Option (List Rat))) (L : Nat)
    (h : firstBadLen (usizeOfI32 dim) vals = some L) :
    flattenVectors dim vals = .error (.argError ("Vector dimension mismatch. Expected " ++
      toString dim ++ ", got " ++ toString L)) := by
  induction vals with
  | nil => simp [firstBadLen] at h
  | cons o os ih =>
      cases o with
      | none =>
          simp only [firstBadLen] at h
          simp only [flattenVectors, ih h, bind, Except.bind]
      | some vec =>
          by_cases hlen : vec.length ≠ usizeOfI32 dim
          · simp only [firstBadLen, if_pos hlen, Option.some.injEq] at h
            subst h
            simp only [flattenVectors, if_pos hlen]
          · simp only [firstBadLen, if_neg hlen] at h
            simp only [flattenVectors, if_neg hlen, ih h, bind, Except.bind]

/-- The assembly loop propagates the error of the first failing column
once every earlier column assembles. -/
theorem buildCols_err_at (a : Accs) (pre post : List AField) (f : AField) (e : RErr)
    (hpre : ∀ g ∈ pre, exOk (buildColumn a g) = true)
    (hf : buildColumn a f = .error e) :
    buildCols a (pre ++ f :: post) = .error e := by
  induction pre with
  | nil => simp [buildCols, hf, bind, Except.bind]
  | cons g gs ih =>
      obtain ⟨c, hc⟩ := exOk_eq_true (hpre g (by simp))
      have hrec := ih (fun r hr => hpre r (by simp [hr]))
      simp only [List.cons_append, buildCols, hc, bind, Except.bind, List.append_eq]
      rw [hrec]

/-- Claim C3 (amended): the dimension check runs in the assembly phase,
after all records are consumed.  When accumulation succeeds (no record
produced a conversion error) and every column before the vector column
assembles, encode fails with the dimension-mismatch error of the first
offending accumulated vector, reporting the expected and actual
lengths. -/
theorem vector_dim_error_at_assembly (n32 : Rat → Rat) (data : List RValue) (a : Accs)
    (pre post : List AField) (nm inm : String) (ity : ADataType) (inull nb : Bool) (dim : Int)
    (L : Nat)
    (hacc : accumulate n32 (pre ++ ⟨nm, .fixedSizeList inm ity inull dim, nb⟩ :: post) data
      Accs.empty = .ok a)
    (hpre : ∀ g ∈ pre, exOk (buildColumn a g) = true)
    (hbad : firstBadLen (usizeOfI32 dim) (a.vector_columns nm) = some L) :
    build_record_batch n32 data (pre ++ ⟨nm, .fixedSizeList inm ity inull dim, nb⟩ :: post) =
      .error (.argError ("Vector dimension mismatch. Expected " ++ toString dim ++
        ", got " ++ toString L)) := by
  have hf : buildColumn a ⟨nm, .fixedSizeList inm ity inull dim, nb⟩ =
      .error (.argError ("Vector dimension mismatch. Expected " ++ toString dim ++
        ", got " ++ toString L)) := by
    simp only [buildColumn, flattenVectors_err dim _ L hbad, bind, Except.bind]
  simp only [build_record_batch, hacc, bind, Except.bind]
  rw [buildCols_err_at a pre post _ _ hpre hf]

/-- Witness for the amended claim C3: one record whose vector has
length 1 against dimension 2. -/
theorem vector_dim_error_at_assembly_witness :
    accumulate id ([] ++ ⟨"v", .fixedSizeList "item" .float32 true 2, true⟩ :: [])
        [.hash [(.sym "v", .array [.float 1])]] Accs.empty =
      .ok ⟨fun _ => [], fun _ => [], fun _ => [], fun _ => [],
        pushAt (fun _ => []) "v" (some [(1 : Rat)])⟩ ∧
    build_record_batch id [.hash [(.sym "v", .array [.float 1])]]
        ([] ++ ⟨"v", .fixedSizeList "item" .float32 true 2, true⟩ :: []) =
      .error (.argError ("Vector dimension mismatch. Expected " ++ toString (2 : Int) ++
        ", got " ++ toString (1 : Nat))) :=
  ⟨rfl,
   vector_dim_error_at_assembly id [.hash [(.sym "v", .array [.float 1])]]
     ⟨fun _ => [], fun _ => [], fun _ => [], fun _ => [],
       pushAt (fun _ => []) "v" (some [(1 : Rat)])⟩
     [] [] "v" "item" .float32 true true 2 1 rfl (by simp) (by decide)⟩

/-- Claim C1 (counterexample): the record `{v: nil}` validates against
the one-field vector schema (nulls are allowed everywhere), yet the
round trip returns the zero vector `[0.0]` where the normalized input
has the null marker. -/
theorem roundtrip_null_vector_cex :
    validRecord [⟨"v", .fixedSizeList "item" .float32 true 1, true⟩] (.hash [(.sym "v", .nil)]) =
      true ∧
    (build_record_batch id [.hash [(.sym "v", .nil)]]
        [⟨"v", .fixedSizeList "item" .float32 true 1, true⟩]).bind convert_batch_to_ruby =
      .ok [[(.sym "v", .array [.float 0])]] ∧
    [.hash [(.sym "v", .nil)]].map
        (normalizeRecord id [⟨"v", .fixedSizeList "item" .float32 true 1, true⟩]) =
      [[(.sym "v", .nil)]] ∧
    ([[(RKey.sym "v", RValue.array [.float 0])]] : List (List (RKey × RValue))) ≠
      [[(.sym "v", .nil)]] :=
  ⟨rfl, rfl, rfl, fun h => nomatch h⟩

/-- A value with a numeric payload converts through `rb_num2dbl` to
that payload. -/
theorem tryConvertF64_eq_numValue {v : RValue} {x : Rat} (h : numValue v = some x) :
    tryConvertF64 v = .ok x := by
  cases v <;> simp_all [numValue, tryConvertF64]

/-- Mapping the float conversion over a list of numerics succeeds with
the narrowed payloads. -/
theorem mapM_f64 (n32 : Rat → Rat) (xs : List RValue)
    (h : ∀ e ∈ xs, (numValue e).isSome = true) :
    xs.mapM (fun e => (tryConvertF64 e).map n32) =
      .ok (xs.map (fun e => n32 ((numValue e).getD 0))) := by
  induction xs with
  | nil => rfl
  | cons e es ih =>
      obtain ⟨x, hx⟩ := Option.isSome_iff_exists.mp (h e (by simp))
      rw [List.mapM_cons, tryConvertF64_eq_numValue hx,
        ih (fun r hr => h r (by simp [hr]))]
      simp [hx, Except.map, bind, Except.bind, pure, Except.pure]

/-- A record that validates is a hash. -/
theorem validRecord_hash {schema : List AField} {item : RValue}
    (h : validRecord schema item = true) : ∃ entries, item = .hash entries := by
  cases item <;> simp_all [validRecord]

/-- In a validating record every schema field's lookup succeeds with a
valid value (by definition of validation). -/
theorem validRecord_lookup {schema : List AField} {entries : List (RKey × RValue)} {f : AField}
    (h : validRecord schema (.hash entries) = true) (hf : f ∈ schema) :
    lookupField entries f.name = .ok (fetchValD entries f.name) ∧
      validValue f.dtype (fetchValD entries f.name) = true := by
  have hx := (List.all_eq_true.mp (by simpa [validRecord] using h)) f hf
  cases hl : lookupField entries f.name with
  | ok v =>
      rw [hl] at hx
      have hfd : fetchValD entries f.name = v := by simp [fetchValD, hl]
      rw [hfd]
      exact ⟨rfl, hx⟩
  | error e => rw [hl] at hx; simp at hx

/-- One field step of the record loop, on a valid value of an
encodable field, succeeds and performs exactly the pure push. -/
theorem processField_valid (n32 : Rat → Rat) {entries : List (RKey × RValue)} {f : AField}
    (a : Accs) (hl : lookupField entries f.name = .ok (fetchValD entries f.name))
    (hv : validValue f.dtype (fetchValD entries f.name) = true)
    (hsup : encodableField f = true) :
    processField n32 entries a f = .ok (pushField n32 entries a f) := by
  obtain ⟨nm, dt, nb⟩ := f
  simp only at hl hv hsup ⊢
  cases dt with
  | utf8 =>
      cases hval : fetchValD entries nm <;> rw [hval] at hl hv <;>
        simp_all [processField, pushField, validValue, tryConvertString, sStr, hval, bind,
          Except.bind]
  | float32 =>
      cases hval : fetchValD entries nm <;> rw [hval] at hl hv <;>
        simp_all [processField, pushField, validValue, tryConvertF64, sFloat, numValue, hval,
          bind, Except.bind]
  | int64 =>
      cases hval : fetchValD entries nm <;> rw [hval] at hl hv <;>
        simp_all [processField, pushField, validValue, tryConvertI64, sInt, hval, bind,
          Except.bind]
  | boolean =>
      cases hval : fetchValD entries nm <;> rw [hval] at hl hv <;>
        simp_all [processField, pushField, validValue, RValue.toBool, sBool, hval, bind,
          Except.bind]
  | float64 => simp [encodableField] at hsup
  | int32 => simp [encodableField] at hsup
  | fixedSizeList inm ity inull dim =>
      cases hval : fetchValD entries nm
      case array xs =>
        rw [hval] at hl hv
        have hnum : ∀ e ∈ xs, (numValue e).isSome = true := by
          simp only [validValue, Bool.and_eq_true, List.all_eq_true] at hv
          exact hv.1
        simp only [processField, hl, tryConvertRArray, bind, Except.bind, mapM_f64 n32 xs hnum,
          pushField, sVec, hval]
      all_goals
        rw [hval] at hl hv
        simp_all [processField, pushField, validValue, tryConvertRArray, sVec, hval, bind,
          Except.bind]

/-- The record loop over valid encodable fields succeeds and folds the
pure pushes. -/
theorem processRecord_valid (n32 : Rat → Rat) {entries : List (RKey × RValue)}
    (fields : List AField) (a : Accs)
    (h : ∀ f ∈ fields, lookupField entries f.name = .ok (fetchValD entries f.name) ∧
      validValue f.dtype (fetchValD entries f.name) = true ∧ encodableField f = true) :
    processRecord n32 entries fields a = .ok (fields.foldl (pushField n32 entries) a) := by
  induction fields generalizing a with
  | nil => rfl
  | cons f fs ih =>
      obtain ⟨h1, h2, h3⟩ := h f (by simp)
      simp only [processRecord, processField_valid n32 a h1 h2 h3, bind, Except.bind,
        List.foldl_cons]
      exact ih _ (fun g hg => h g (by simp [hg]))

/-- Accumulation over valid records succeeds and folds the pure record
pushes. -/
theorem accumulate_valid (n32 : Rat → Rat) (schema : List AField) (data : List RValue)
    (a : Accs) (hval : ∀ item ∈ data, validRecord schema item = true)
    (hsup : ∀ f ∈ schema, encodableField f = true) :
    accumulate n32 schema data a = .ok (data.foldl (pushItem n32 schema) a) := by
  induction data generalizing a with
  | nil => rfl
  | cons x xs ih =>
      obtain ⟨entries, rfl⟩ := validRecord_hash (hval x (by simp))
      have hv0 : validRecord schema (.hash entries) = true := hval (.hash entries) (by simp)
      have hrec := processRecord_valid n32 schema a (fun f hf =>
        ⟨(validRecord_lookup hv0 hf).1, (validRecord_lookup hv0 hf).2, hsup f hf⟩)
      simp only [accumulate, tryConvertRHash, hrec, bind, Except.bind, List.foldl_cons]
      have : pushItem n32 schema a (.hash entries) =
          schema.foldl (pushField n32 entries) a := rfl
      rw [← this]
      exact ih _ (fun it hit => hval it (by simp [hit]))

/-- Pushing a field of a different name leaves every accumulator entry
at this name unchanged. -/
theorem pushField_read_ne (n32 : Rat → Rat) (entries : List (RKey × RValue)) (a : Accs)
    (g : AField) (nm : String) (hne : g.name ≠ nm) :
    (pushField n32 entries a g).columns nm = a.columns nm ∧
    (pushField n32 entries a g).float_columns nm = a.float_columns nm ∧
    (pushField n32 entries a g).int_columns nm = a.int_columns nm ∧
    (pushField n32 entries a g).bool_columns nm = a.bool_columns nm ∧
    (pushField n32 entries a g).vector_columns nm = a.vector_columns nm := by
  obtain ⟨gn, gd, gb⟩ := g
  simp only at hne
  have hx : ¬(nm = gn) := fun h => hne h.symm
  cases gd <;> simp [pushField, pushAt, hx]

/-- A fold of pushes over fields of other names leaves every
accumulator entry at this name unchanged. -/
theorem foldl_pushField_read_ne (n32 : Rat → Rat) (entries : List (RKey × RValue))
    (fields : List AField) (a : Accs) (nm : String) (h : ∀ g ∈ fields, g.name ≠ nm) :
    (fields.foldl (pushField n32 entries) a).columns nm = a.columns nm ∧
    (fields.foldl (pushField n32 entries) a).float_columns nm = a.float_columns nm ∧
    (fields.foldl (pushField n32 entries) a).int_columns nm = a.int_columns nm ∧
    (fields.foldl (pushField n32 entries) a).bool_columns nm = a.bool_columns nm ∧
    (fields.foldl (pushField n32 entries) a).vector_columns nm = a.vector_columns nm := by
  induction fields generalizing a with
  | nil => exact ⟨rfl, rfl, rfl, rfl, rfl⟩
  | cons g gs ih =>
      have h1 := pushField_read_ne n32 entries a g nm (h g (by simp))
      have h2 := ih (pushField n32 entries a g) (fun r hr => h r (by simp [hr]))
      simp only [List.foldl_cons]
      exact ⟨h2.1.trans h1.1, h2.2.1.trans h1.2.1, h2.2.2.1.trans h1.2.2.1,
        h2.2.2.2.1.trans h1.2.2.2.1, h2.2.2.2.2.trans h1.2.2.2.2⟩

/-- One record's fold pushes exactly one stored value onto the utf8
accumulator of a string field with no duplicate name. -/
theorem foldl_read_utf8 (n32 : Rat → Rat) (entries : List (RKey × RValue))
    {fields : List AField} (a : Accs) {f : AField} (hf : f ∈ fields)
    (hnd : (fields.map AField.name).Nodup) (h : f.dtype = .utf8) :
    (fields.foldl (pushField n32 entries) a).columns f.name =
      a.columns f.name ++ [sStr (fetchValD entries f.name)] := by
  induction fields generalizing a with
  | nil => simp at hf
  | cons g gs ih =>
      simp only [List.map_cons, List.nodup_cons] at hnd
      rcases List.mem_cons.mp hf with rfl | hmem
      · have hpush : (pushField n32 entries a f).columns f.name =
            a.columns f.name ++ [sStr (fetchValD entries f.name)] := by
          obtain ⟨nm, dt, nb⟩ := f
          simp only at h
          subst h
          simp [pushField, pushAt]
        have hrest := foldl_pushField_read_ne n32 entries gs (pushField n32 entries a f) f.name
          (fun r hr => fun hh => hnd.1 (hh ▸ List.mem_map_of_mem AField.name hr))
        simpa only [List.foldl_cons, hrest.1] using hpush
      · have hgne : g.name ≠ f.name := fun hh =>
          hnd.1 (hh.symm ▸ List.mem_map_of_mem AField.name hmem)
        have h1 := pushField_read_ne n32 entries a g f.name hgne
        simp only [List.foldl_cons]
        rw [ih (pushField n32 entries a g) hmem hnd.2, h1.1]

/-- Like `foldl_read_utf8`, for a float32 field. -/
theorem foldl_read_float32 (n32 : Rat → Rat) (entries : List (RKey × RValue))
    {fields : List AField} (a : Accs) {f : AField} (hf : f ∈ fields)
    (hnd : (fields.map AField.name).Nodup) (h : f.dtype = .float32) :
    (fields.foldl (pushField n32 entries) a).float_columns f.name =
      a.float_columns f.name ++ [sFloat n32 (fetchValD entries f.name)] := by
  induction fields generalizing a with
  | nil => simp at hf
  | cons g gs ih =>
      simp only [List.map_cons, List.nodup_cons] at hnd
      rcases List.mem_cons.mp hf with rfl | hmem
      · have hpush : (pushField n32 entries a f).float_columns f.name =
            a.float_columns f.name ++ [sFloat n32 (fetchValD entries f.name)] := by
          obtain ⟨nm, dt, nb⟩ := f
          simp only at h
          subst h
          simp [pushField, pushAt]
        have hrest := foldl_pushField_read_ne n32 entries gs (pushField n32 entries a f) f.name
          (fun r hr => fun hh => hnd.1 (hh ▸ List.mem_map_of_mem AField.name hr))
        simpa only [List.foldl_cons, hrest.2.1] using hpush
      · have hgne : g.name ≠ f.name := fun hh =>
          hnd.1 (hh.symm ▸ List.mem_map_of_mem AField.name hmem)
        have h1 := pushField_read_ne n32 entries a g f.name hgne
        simp only [List.foldl_cons]
        rw [ih (pushField n32 entries a g) hmem hnd.2, h1.2.1]

/-- Like `foldl_read_utf8`, for an int64 field. -/
theorem foldl_read_int64 (n32 : Rat → Rat) (entries : List (RKey × RValue))
    {fields : List AField} (a : Accs) {f : AField} (hf : f ∈ fields)
    (hnd : (fields.map AField.name).Nodup) (h : f.dtype = .int64) :
    (fields.foldl (pushField n32 entries) a).int_columns f.name =
      a.int_columns f.name ++ [sInt (fetchValD entries f.name)] := by
  induction fields generalizing a with
  | nil => simp at hf
  | cons g gs ih =>
      simp only [List.map_cons, List.nodup_cons] at hnd
      rcases List.mem_cons.mp hf with rfl | hmem
      · have hpush : (pushField n32 entries a f).int_columns f.name =
            a.int_columns f.name ++ [sInt (fetchValD entries f.name)] := by
          obtain ⟨nm, dt, nb⟩ := f
          simp only at h
          subst h
          simp [pushField, pushAt]
        have hrest := foldl_pushField_read_ne n32 entries gs (pushField n32 entries a f) f.name
          (fun r hr => fun hh => hnd.1 (hh ▸ List.mem_map_of_mem AField.name hr))
        simpa only [List.foldl_cons, hrest.2.2.1] using hpush
      · have hgne : g.name ≠ f.name := fun hh =>
          hnd.1 (hh.symm ▸ List.mem_map_of_mem AField.name hmem)
        have h1 := pushField_read_ne n32 entries a g f.name hgne
        simp only [List.foldl_cons]
        rw [ih (pushField n32 entries a g) hmem hnd.2, h1.2.2.1]

/-- Like `foldl_read_utf8`, for a boolean field. -/
theorem foldl_read_boolean (n32 : Rat → Rat) (entries : List (RKey × RValue))
    {fields : List AField} (a : Accs) {f : AField} (hf : f ∈ fields)
    (hnd : (fields.map AField.name).Nodup) (h : f.dtype = .boolean) :
    (fields.foldl (pushField n32 entries) a).bool_columns f.name =
      a.bool_columns f.name ++ [sBool (fetchValD entries f.name)] := by
  induction fields generalizing a with
  | nil => simp at hf
  | cons g gs ih =>
      simp only [List.map_cons, List.nodup_cons] at hnd
      rcases List.mem_cons.mp hf with rfl | hmem
      · have hpush : (pushField n32 entries a f).bool_columns f.name =
            a.bool_columns f.name ++ [sBool (fetchValD entries f.name)] := by
          obtain ⟨nm, dt, nb⟩ := f
          simp only at h
          subst h
          simp [pushField, pushAt]
        have hrest := foldl_pushField_read_ne n32 entries gs (pushField n32 entries a f) f.name
          (fun r hr => fun hh => hnd.1 (hh ▸ List.mem_map_of_mem AField.name hr))
        simpa only [List.foldl_cons, hrest.2.2.2.1] using hpush
      · have hgne : g.name ≠ f.name := fun hh =>
          hnd.1 (hh.symm ▸ List.mem_map_of_mem AField.name hmem)
        have h1 := pushField_read_ne n32 entries a g f.name hgne
        simp only [List.foldl_cons]
        rw [ih (pushField n32 entries a g) hmem hnd.2, h1.2.2.2.1]

/-- Like `foldl_read_utf8`, for a vector field. -/
theorem foldl_read_vector (n32 : Rat → Rat) (entries : List (RKey × RValue))
    {fields : List AField} (a : Accs) {f : AField} (hf : f ∈ fields)
    (hnd : (fields.map AField.name).Nodup) {inm : String} {ity : ADataType} {inull : Bool}
    {dim : Int} (h : f.dtype = .fixedSizeList inm ity inull dim) :
    (fields.foldl (pushField n32 entries) a).vector_columns f.name =
      a.vector_columns f.name ++ [sVec n32 (fetchValD entries f.name)] := by
  induction fields generalizing a with
  | nil => simp at hf
  | cons g gs ih =>
      simp only [List.map_cons, List.nodup_cons] at hnd
      rcases List.mem_cons.mp hf with rfl | hmem
      · have hpush : (pushField n32 entries a f).vector_columns f.name =
            a.vector_columns f.name ++ [sVec n32 (fetchValD entries f.name)] := by
          obtain ⟨nm, dt, nb⟩ := f
          simp only at h
          subst h
          simp [pushField, pushAt]
        have hrest := foldl_pushField_read_ne n32 entries gs (pushField n32 entries a f) f.name
          (fun r hr => fun hh => hnd.1 (hh ▸ List.mem_map_of_mem AField.name hr))
        simpa only [List.foldl_cons, hrest.2.2.2.2] using hpush
      · have hgne : g.name ≠ f.name := fun hh =>
          hnd.1 (hh.symm ▸ List.mem_map_of_mem AField.name hmem)
        have h1 := pushField_read_ne n32 entries a g f.name hgne
        simp only [List.foldl_cons]
        rw [ih (pushField n32 entries a g) hmem hnd.2, h1.2.2.2.2]

/-- Accumulating all records stacks the stored string values of a
string field in record order. -/
theorem data_read_utf8 (n32 : Rat → Rat) {schema : List AField} (data : List RValue) (a : Accs)
    {f : AField} (hf : f ∈ schema) (hnd : (schema.map AField.name).Nodup)
    (h : f.dtype = .utf8) :
    (data.foldl (pushItem n32 schema) a).columns f.name =
      a.columns f.name ++ data.map (fun it => sStr (fetchValD (entriesOf it) f.name)) := by
  induction data generalizing a with
  | nil => simp
  | cons x xs ih =>
      simp only [List.foldl_cons, List.map_cons]
      rw [ih (pushItem n32 schema a x)]
      simp only [pushItem]
      rw [foldl_read_utf8 n32 (entriesOf x) a hf hnd h]
      simp

/-- Accumulating all records stacks the stored float values of a
float32 field in record order. -/
theorem data_read_float32 (n32 : Rat → Rat) {schema : List AField} (data : List RValue)
    (a : Accs) {f : AField} (hf : f ∈ schema) (hnd : (schema.map AField.name).Nodup)
    (h : f.dtype = .float32) :
    (data.foldl (pushItem n32 schema) a).float_columns f.name =
      a.float_columns f.name ++ data.map (fun it => sFloat n32 (fetchValD (entriesOf it) f.name)) := by
  induction data generalizing a with
  | nil => simp
  | cons x xs ih =>
      simp only [List.foldl_cons, List.map_cons]
      rw [ih (pushItem n32 schema a x)]
      simp only [pushItem]
      rw [foldl_read_float32 n32 (entriesOf x) a hf hnd h]
      simp

/-- Accumulating all records stacks the stored integer values of an
int64 field in record order. -/
theorem data_read_int64 (n32 : Rat → Rat) {schema : List AField} (data : List RValue) (a : Accs)
    {f : AField} (hf : f ∈ schema) (hnd : (schema.map AField.name).Nodup)
    (h : f.dtype = .int64) :
    (data.foldl (pushItem n32 schema) a).int_columns f.name =
      a.int_columns f.name ++ data.map (fun it => sInt (fetchValD (entriesOf it) f.name)) := by
  induction data generalizing a with
  | nil => simp
  | cons x xs ih =>
      simp only [List.foldl_cons, List.map_cons]
      rw [ih (pushItem n32 schema a x)]
      simp only [pushItem]
      rw [foldl_read_int64 n32 (entriesOf x) a hf hnd h]
      simp

/-- Accumulating all records stacks the stored boolean values of a
boolean field in record order. -/
theorem data_read_boolean (n32 : Rat → Rat) {schema : List AField} (data : List RValue)
    (a : Accs) {f : AField} (hf : f ∈ schema) (hnd : (schema.map AField.name).Nodup)
    (h : f.dtype = .boolean) :
    (data.foldl (pushItem n32 schema) a).bool_columns f.name =
      a.bool_columns f.name ++ data.map (fun it => sBool (fetchValD (entriesOf it) f.name)) := by
  induction data generalizing a with
  | nil => simp
  | cons x xs ih =>
      simp only [List.foldl_cons, List.map_cons]
      rw [ih (pushItem n32 schema a x)]
      simp only [pushItem]
      rw [foldl_read_boolean n32 (entriesOf x) a hf hnd h]
      simp

/-- Accumulating all records stacks the stored vectors of a vector
field in record order. -/
theorem data_read_vector (n32 : Rat → Rat) {schema : List AField} (data : List RValue)
    (a : Accs) {f : AField} (hf : f ∈ schema) (hnd : (schema.map AField.name).Nodup)
    {inm : String} {ity : ADataType} {inull : Bool} {dim : Int}
    (h : f.dtype = .fixedSizeList inm ity inull dim) :
    (data.foldl (pushItem n32 schema) a).vector_columns f.name =
      a.vector_columns f.name ++ data.map (fun it => sVec n32 (fetchValD (entriesOf it) f.name)) := by
  induction data generalizing a with
  | nil => simp
  | cons x xs ih =>
      simp only [List.foldl_cons, List.map_cons]
      rw [ih (pushItem n32 schema a x)]
      simp only [pushItem]
      rw [foldl_read_vector n32 (entriesOf x) a hf hnd h]
      simp

/-- A valid record with no null vectors stores, for each vector field,
a vector of exactly the configured window length. -/
theorem vector_entry_shape (n32 : Rat → Rat) {schema : List AField} {item : RValue}
    {f : AField} {inm : String} {ity : ADataType} {inull : Bool} {dim : Int} (hf : f ∈ schema)
    (hdt : f.dtype = .fixedSizeList inm ity inull dim)
    (hv : validRecord schema item = true) (hnn : hasNullVector schema item = false) :
    ∃ vec, sVec n32 (fetchValD (entriesOf item) f.name) = some vec ∧
      vec.length = usizeOfI32 dim := by
  obtain ⟨entries, rfl⟩ := validRecord_hash hv
  have hval := (validRecord_lookup hv hf).2
  have hlk := (validRecord_lookup hv hf).1
  rw [hdt] at hval
  cases hfv : fetchValD (entriesOf (RValue.hash entries)) f.name with
  | nil =>
      exfalso
      have hfn : f.name = AField.name f := rfl
      have := List.any_eq_false.mp (by simpa [hasNullVector] using hnn) f hf
      apply this
      rw [hdt]
      have : lookupField (entriesOf (RValue.hash entries)) f.name = .ok .nil := by
        have hx := hlk
        simp only [entriesOf] at hx hfv ⊢
        rw [hx, hfv]
      simp only [entriesOf] at this ⊢
      rw [this]
  | array xs =>
      simp only [entriesOf] at hfv
      rw [hfv] at hval
      simp only [validValue, Bool.and_eq_true, beq_iff_eq] at hval
      refine ⟨xs.map (fun e => n32 ((numValue e).getD 0)), ?_, ?_⟩
      · simp only [entriesOf, hfv, sVec]
      · simp [hval.2]
  | bool b => simp only [entriesOf] at hfv; rw [hfv] at hval; simp [validValue] at hval
  | int n => simp only [entriesOf] at hfv; rw [hfv] at hval; simp [validValue] at hval
  | float q => simp only [entriesOf] at hfv; rw [hfv] at hval; simp [validValue] at hval
  | str s => simp only [entriesOf] at hfv; rw [hfv] at hval; simp [validValue] at hval
  | hash hs => simp only [entriesOf] at hfv; rw [hfv] at hval; simp [validValue] at hval

/-- Flattening succeeds when every accumulated vector is present with
the configured window length, producing their concatenation. -/
theorem flattenVectors_ok (dim : Int) (vals : List (Option (List Rat)))
    (h : ∀ o ∈ vals, ∃ vec, o = some vec ∧ vec.length = usizeOfI32 dim) :
    flattenVectors dim vals = .ok ((vals.map (fun o => o.getD [])).flatten) := by
  induction vals with
  | nil => rfl
  | cons o os ih =>
      obtain ⟨vec, rfl, hlen⟩ := h o (by simp)
      have hne : ¬(vec.length ≠ usizeOfI32 dim) := by simp [hlen]
      simp only [flattenVectors, if_neg hne, ih (fun r hr => h r (by simp [hr])), bind,
        Except.bind, List.map_cons, List.flatten_cons, Option.getD_some]

/-- An `i32` in range reinterprets to `usize` as its own value. -/
theorem usizeOfI32_of_nonneg {d : Int} (h0 : 0 ≤ d) (h1 : d ≤ i32Max) :
    usizeOfI32 d = d.toNat := by
  have h3 : i32Max = 2147483647 := by norm_num [i32Max]
  rw [h3] at h1
  have hlt : d < 2 ^ 64 := by
    have : (2147483647 : Int) < 2 ^ 64 := by norm_num
    omega
  simp only [usizeOfI32, Int.emod_eq_of_lt h0 hlt]

/-- Every assembled column of a valid record sequence has one logical
entry per record. -/
theorem expectedCol_size (n32 : Rat → Rat) {schema : List AField} (data : List RValue)
    {f : AField} (hf : f ∈ schema) (hsup : encodableField f = true)
    (hvalid : ∀ item ∈ data, validRecord schema item = true)
    (hnn : ∀ item ∈ data, hasNullVector schema item = false) :
    (expectedCol n32 data f).size = data.length := by
  obtain ⟨nm, dt, nb⟩ := f
  cases dt with
  | utf8 => simp [expectedCol, AColumn.size]
  | float32 => simp [expectedCol, AColumn.size]
  | int64 => simp [expectedCol, AColumn.size]
  | boolean => simp [expectedCol, AColumn.size]
  | float64 => simp [encodableField] at hsup
  | int32 => simp [encodableField] at hsup
  | fixedSizeList inm ity inull dim =>
      simp only [encodableField, decide_eq_true_eq] at hsup
      obtain ⟨hd1, hd2⟩ := hsup
      have husize := usizeOfI32_of_nonneg (by omega) hd2
      have hpieces : ∀ l ∈ data.map (fun it =>
          (sVec n32 (fetchValD (entriesOf it) nm)).getD ([] : List Rat)),
          l.length = usizeOfI32 dim := by
        intro l hl
        obtain ⟨it, hit, rfl⟩ := List.mem_map.mp hl
        obtain ⟨vec, hvec, hlen⟩ := vector_entry_shape n32 hf rfl (hvalid it hit) (hnn it hit)
        rw [hvec]
        simpa using hlen
      simp only [expectedCol, AColumn.size, List.length_flatten]
      have hrep : (data.map (fun it =>
          (sVec n32 (fetchValD (entriesOf it) nm)).getD ([] : List Rat))).map List.length =
          List.replicate data.length (usizeOfI32 dim) := by
        refine List.eq_replicate_iff.mpr ⟨by simp, ?_⟩
        intro b hb
        obtain ⟨l, hl, rfl⟩ := List.mem_map.mp hb
        exact hpieces l hl
      rw [hrep, List.sum_replicate, smul_eq_mul]
      have hmax : max dim 1 = dim := max_eq_left hd1
      rw [hmax, ← husize]
      have hpos : 0 < usizeOfI32 dim := by
        rw [husize]
        omega
      exact Nat.mul_div_cancel _ hpos

/-- Assembly of each field from the final accumulators yields exactly
the expected column. -/
theorem buildColumn_final (n32 : Rat → Rat) {schema : List AField} (data : List RValue)
    {f : AField} (hf : f ∈ schema) (hnd : (schema.map AField.name).Nodup)
    (hsup : encodableField f = true)
    (hvalid : ∀ item ∈ data, validRecord schema item = true)
    (hnn : ∀ item ∈ data, hasNullVector schema item = false) :
    buildColumn (data.foldl (pushItem n32 schema) Accs.empty) f =
      .ok (expectedCol n32 data f) := by
  obtain ⟨nm, dt, nb⟩ := f
  cases dt with
  | utf8 =>
      simp only [buildColumn, expectedCol]
      rw [data_read_utf8 n32 data Accs.empty hf hnd rfl]
      simp [Accs.empty]
  | float32 =>
      simp only [buildColumn, expectedCol]
      rw [data_read_float32 n32 data Accs.empty hf hnd rfl]
      simp [Accs.empty]
  | int64 =>
      simp only [buildColumn, expectedCol]
      rw [data_read_int64 n32 data Accs.empty hf hnd rfl]
      simp [Accs.empty]
  | boolean =>
      simp only [buildColumn, expectedCol]
      rw [data_read_boolean n32 data Accs.empty hf hnd rfl]
      simp [Accs.empty]
  | float64 => simp [encodableField] at hsup
  | int32 => simp [encodableField] at hsup
  | fixedSizeList inm ity inull dim =>
      simp only [buildColumn]
      rw [data_read_vector n32 data Accs.empty hf hnd rfl]
      have hempty : Accs.empty.vector_columns nm = [] := rfl
      rw [hempty, List.nil_append]
      have hshape : ∀ o ∈ data.map (fun it => sVec n32 (fetchValD (entriesOf it) nm)),
          ∃ vec, o = some vec ∧ vec.length = usizeOfI32 dim := by
        intro o ho
        obtain ⟨it, hit, rfl⟩ := List.mem_map.mp ho
        exact vector_entry_shape n32 hf rfl (hvalid it hit) (hnn it hit)
      rw [flattenVectors_ok dim _ hshape]
      simp [expectedCol, bind, Except.bind, List.map_map, Function.comp_def]

/-- The assembly loop succeeds pointwise. -/
theorem buildCols_of_pointwise (a : Accs) (fields : List AField) (colOf : AField → AColumn)
    (h : ∀ f ∈ fields, buildColumn a f = .ok (colOf f)) :
    buildCols a fields = .ok (fields.map colOf) := by
  induction fields with
  | nil => rfl
  | cons f fs ih =>
      simp only [buildCols, h f (by simp), bind, Except.bind,
        ih (fun g hg => h g (by simp [hg])), List.map_cons]

/-- `RecordBatch::try_new` succeeds on a nonempty column list of
uniform length. -/
theorem tryNew_sizes (schema : List AField) (cols : List AColumn) (n : Nat)
    (hne : schema ≠ []) (hlen : schema.length = cols.length)
    (hsizes : ∀ c ∈ cols, c.size = n) :
    tryNew schema cols = .ok ⟨schema, cols, n⟩ := by
  cases cols with
  | nil =>
      cases schema with
      | nil => exact absurd rfl hne
      | cons f fs => simp at hlen
  | cons c cs =>
      have hc : c.size = n := hsizes c (by simp)
      have hall : ((c :: cs).all (fun x => x.size == ((c :: cs).headD (.utf8Col [])).size)) =
          true := by
        simp only [List.headD_cons]
        refine List.all_eq_true.mpr ?_
        intro x hx
        simp [hsizes x hx, hc]
      simp [tryNew, hlen, hall, hc]
      intro x hx
      exact hsizes x (by simp [hx])

/-- A defaulted read inside the list is a true read. -/
theorem getD_eq_getElem_of_lt {α : Type} (l : List α) (r : Nat) (h : r < l.length) (d : α) :
    l.getD r d = l[r] := by
  rw [List.getD_eq_getElem?_getD, List.getElem?_eq_getElem h]
  rfl

/-- A defaulted read of a mapped list inside the list maps the read. -/
theorem getD_map_of_lt {α β : Type} (g : α → β) (l : List α) {r : Nat} (h : r < l.length)
    (d : β) (d' : α) : (l.map g).getD r d = g (l.getD r d') := by
  have h2 : r < (l.map g).length := by simpa using h
  rw [getD_eq_getElem_of_lt _ _ h2, getD_eq_getElem_of_lt _ _ h, List.getElem_map]

/-- The defaulted element of a list at an index inside it is a member. -/
theorem getD_mem_of_lt {α : Type} (l : List α) (r : Nat) (h : r < l.length) (d : α) :
    l.getD r d ∈ l := by
  rw [getD_eq_getElem_of_lt _ _ h]
  exact List.getElem_mem h

/-- Dropping whole windows from a flat array of uniform windows drops
whole rows. -/
theorem flatten_drop_of_length {α : Type} (d : Nat) (L : List (List α))
    (h : ∀ l ∈ L, l.length = d) :
    ∀ r, (L.flatten).drop (r * d) = ((L.drop r).flatten) := by
  induction L with
  | nil => intro r; simp
  | cons x xs ih =>
      intro r
      cases r with
      | zero => simp
      | succ r' =>
          have hx : x.length = d := h x (by simp)
          have hdl : (x ++ xs.flatten).drop (x.length + r' * d) = (xs.flatten).drop (r' * d) :=
            List.drop_append (r' * d)
          rw [hx] at hdl
          have harith : (r' + 1) * d = d + r' * d := by ring
          rw [List.flatten_cons, harith, hdl, List.drop_succ_cons]
          exact ih (fun l hl => h l (by simp [hl])) r'

/-- A valid record with no null vectors carries, at each vector field,
an array of numerics of exactly the configured window length. -/
theorem vector_value_shape {schema : List AField} {item : RValue} {f : AField} {inm : String}
    {ity : ADataType} {inull : Bool} {dim : Int} (hf : f ∈ schema)
    (hdt : f.dtype = .fixedSizeList inm ity inull dim)
    (hv : validRecord schema item = true) (hnn : hasNullVector schema item = false) :
    ∃ xs, fetchValD (entriesOf item) f.name = .array xs ∧
      (∀ e ∈ xs, (numValue e).isSome = true) ∧ xs.length = usizeOfI32 dim := by
  obtain ⟨entries, rfl⟩ := validRecord_hash hv
  have hval := (validRecord_lookup hv hf).2
  have hlk := (validRecord_lookup hv hf).1
  rw [hdt] at hval
  cases hfv : fetchValD (entriesOf (RValue.hash entries)) f.name with
  | array xs =>
      simp only [entriesOf] at hfv
      rw [hfv] at hval
      simp only [validValue, Bool.and_eq_true, List.all_eq_true, beq_iff_eq] at hval
      exact ⟨xs, by simp [entriesOf, hfv], hval.1, hval.2⟩
  | nil =>
      exfalso
      have hx := List.any_eq_false.mp (by simpa [hasNullVector] using hnn) f hf
      apply hx
      rw [hdt]
      have hok : lookupField (entriesOf (RValue.hash entries)) f.name = .ok .nil := by
        have h1 := hlk
        simp only [entriesOf] at h1 hfv ⊢
        rw [h1, hfv]
      simp only [entriesOf] at hok ⊢
      rw [hok]
  | bool b => simp only [entriesOf] at hfv; rw [hfv] at hval; simp [validValue] at hval
  | int n => simp only [entriesOf] at hfv; rw [hfv] at hval; simp [validValue] at hval
  | float q => simp only [entriesOf] at hfv; rw [hfv] at hval; simp [validValue] at hval
  | str s => simp only [entriesOf] at hfv; rw [hfv] at hval; simp [validValue] at hval
  | hash hs => simp only [entriesOf] at hfv; rw [hfv] at hval; simp [validValue] at hval

/-- Reading a full window back by indices reconstructs the stored
list. -/
theorem range_getD_map {α β : Type} (vec : List α) (d : Nat) (hlen : vec.length = d)
    (dflt : α) (g : α → β) :
    (List.range d).map (fun i => g (vec.getD i dflt)) = vec.map g := by
  refine List.ext_getElem (by simp [hlen]) ?_
  intro i h1 h2
  have hi : i < d := by simpa using h1
  have hiv : i < vec.length := by omega
  simp [List.getElem_map, List.getElem_range, List.getD_eq_getElem?_getD,
    List.getElem?_eq_getElem hiv]

/-- Decoding one field of one row of the expected batch emits the
normalized input value of that row's record. -/
theorem decodeField_expected (n32 : Rat → Rat) {schema : List AField} (data : List RValue)
    {f : AField} (hf : f ∈ schema) (hsup : encodableField f = true)
    (hvalid : ∀ item ∈ data, validRecord schema item = true)
    (hnn : ∀ item ∈ data, hasNullVector schema item = false)
    {r : Nat} (hr : r < data.length) (doc : List (RKey × RValue)) :
    decodeField r doc f (expectedCol n32 data f) =
      .ok (aset doc (.sym f.name)
        (normalizeValue n32 f.dtype (fetchValD (entriesOf (data.getD r .nil)) f.name))) := by
  have hmem : data.getD r .nil ∈ data := getD_mem_of_lt data r hr .nil
  obtain ⟨entries, hitem⟩ := validRecord_hash (hvalid _ hmem)
  have hval0 := hvalid _ hmem
  rw [hitem] at hval0
  obtain ⟨nm, dt, nb⟩ := f
  have hval := (validRecord_lookup hval0 hf).2
  simp only at hval
  cases dt with
  | utf8 =>
      simp only [decodeField, expectedCol]
      rw [getD_map_of_lt _ data hr none .nil, hitem]
      simp only [entriesOf] at hval ⊢
      cases hfv : fetchValD entries nm <;> rw [hfv] at hval <;>
        simp_all [sStr, normalizeValue, validValue]
  | float32 =>
      simp only [decodeField, expectedCol]
      rw [getD_map_of_lt _ data hr none .nil, hitem]
      simp only [entriesOf] at hval ⊢
      cases hfv : fetchValD entries nm <;> rw [hfv] at hval <;>
        simp_all [sFloat, numValue, normalizeValue, validValue]
  | int64 =>
      simp only [decodeField, expectedCol]
      rw [getD_map_of_lt _ data hr none .nil, hitem]
      simp only [entriesOf] at hval ⊢
      cases hfv : fetchValD entries nm <;> rw [hfv] at hval <;>
        simp_all [sInt, normalizeValue, validValue]
  | boolean =>
      simp only [decodeField, expectedCol]
      rw [getD_map_of_lt _ data hr none .nil, hitem]
      simp only [entriesOf] at hval ⊢
      cases hfv : fetchValD entries nm <;> rw [hfv] at hval <;>
        simp_all [sBool, normalizeValue, validValue]
  | float64 => simp [encodableField] at hsup
  | int32 => simp [encodableField] at hsup
  | fixedSizeList inm ity inull dim =>
      simp only [encodableField, decide_eq_true_eq] at hsup
      obtain ⟨hd1, hd2⟩ := hsup
      have husize := usizeOfI32_of_nonneg (by omega) hd2
      have hnn0 := hnn _ hmem
      rw [hitem] at hnn0
      obtain ⟨xs, hxs, hnum, hlen⟩ := vector_value_shape hf rfl hval0 hnn0
      simp only [entriesOf] at hxs
      have hpieces : ∀ l ∈ data.map (fun it =>
          (sVec n32 (fetchValD (entriesOf it) nm)).getD ([] : List Rat)),
          l.length = dim.toNat := by
        intro l hl
        obtain ⟨it, hit, rfl⟩ := List.mem_map.mp hl
        obtain ⟨ys, hys, _, hyl⟩ := vector_value_shape hf rfl (hvalid it hit) (hnn it hit)
        rw [hys]
        simp [sVec, hyl, husize]
      have hrm : r < (data.map (fun it =>
          (sVec n32 (fetchValD (entriesOf it) nm)).getD ([] : List Rat))).length := by
        simpa using hr
      have hwindow : ((data.map (fun it =>
          (sVec n32 (fetchValD (entriesOf it) nm)).getD ([] : List Rat))).flatten).drop
            (r * dim.toNat) =
          (xs.map (fun e => n32 ((numValue e).getD 0))) ++
            ((data.map (fun it =>
              (sVec n32 (fetchValD (entriesOf it) nm)).getD ([] : List Rat))).drop
                (r + 1)).flatten := by
        rw [flatten_drop_of_length dim.toNat _ hpieces r, List.drop_eq_getElem_cons hrm,
          List.flatten_cons, List.getElem_map]
        have : fetchValD (entriesOf data[r]) nm = .array xs := by
          rw [← getD_eq_getElem_of_lt data r hr .nil, hitem]
          simpa [entriesOf] using hxs
        rw [this]
        simp [sVec]
      have hveclen : (xs.map (fun e => n32 ((numValue e).getD 0))).length = dim.toNat := by
        simp [hlen, husize]
      simp only [decodeField, expectedCol, fslIsNull]
      rw [hitem]
      rw [show entriesOf (RValue.hash entries) = entries from rfl]
      rw [hxs, hwindow]
      have hcongr : (List.range dim.toNat).map (fun i =>
          RValue.float (((xs.map (fun e => n32 ((numValue e).getD 0))) ++
            ((data.map (fun it =>
              (sVec n32 (fetchValD (entriesOf it) nm)).getD ([] : List Rat))).drop
                (r + 1)).flatten).getD i 0)) =
          (List.range dim.toNat).map (fun i =>
            RValue.float ((xs.map (fun e => n32 ((numValue e).getD 0))).getD i 0)) := by
        refine List.map_congr_left ?_
        intro i hi
        have hid : i < dim.toNat := List.mem_range.mp hi
        rw [List.getD_append _ _ _ i (by omega)]
      rw [hcongr, range_getD_map _ dim.toNat hveclen 0 RValue.float]
      simp [normalizeValue, List.map_map, Function.comp_def]

/-- The per-row field loop, when every field decodes pointwise, folds
the hash insertions. -/
theorem decodeFields_of_pointwise (r : Nat) (fields : List AField) (colOf : AField → AColumn)
    (cell : AField → RValue)
    (h : ∀ doc f, f ∈ fields →
      decodeField r doc f (colOf f) = .ok (aset doc (.sym f.name) (cell f))) :
    ∀ doc, decodeFields r (fields.map (fun f => (f, colOf f))) doc =
      .ok (fields.foldl (fun d f => aset d (.sym f.name) (cell f)) doc) := by
  induction fields with
  | nil => intro doc; rfl
  | cons f fs ih =>
      intro doc
      simp only [List.map_cons, decodeFields, h doc f (by simp), bind, Except.bind,
        List.foldl_cons]
      exact ih (fun d g hg => h d g (by simp [hg])) _

/-- Inserting distinct fresh keys appends them in order. -/
theorem aset_fold_fresh (fields : List AField) (cell : AField → RValue)
    (hnd : (fields.map AField.name).Nodup) :
    ∀ doc, (∀ f ∈ fields, ∀ p ∈ doc, p.1 ≠ RKey.sym f.name) →
      fields.foldl (fun d f => aset d (.sym f.name) (cell f)) doc =
        doc ++ fields.map (fun f => (RKey.sym f.name, cell f)) := by
  induction fields with
  | nil => intro doc _; simp
  | cons f fs ih =>
      intro doc hfresh
      simp only [List.map_cons, List.nodup_cons] at hnd
      have hany : (doc.any (fun p => p.1 = RKey.sym f.name)) = false := by
        rw [List.any_eq_false]
        intro p hp
        simpa using hfresh f (by simp) p hp
      have h1 : aset doc (RKey.sym f.name) (cell f) = doc ++ [(RKey.sym f.name, cell f)] := by
        simp [aset, hany]
      simp only [List.foldl_cons, h1]
      rw [ih hnd.2 (doc ++ [(RKey.sym f.name, cell f)]) ?_]
      · simp
      · intro g hg p hp
        rcases List.mem_append.mp hp with hp | hp
        · exact hfresh g (by simp [hg]) p hp
        · rcases List.mem_singleton.mp hp with rfl
          intro hh
          simp only [RKey.sym.injEq] at hh
          exact hnd.1 (hh ▸ List.mem_map_of_mem AField.name hg)

/-- The row loop, when every row decodes pointwise, maps the rows. -/
theorem decodeRows_of_pointwise (b : ARecordBatch) (rs : List Nat)
    (rec : Nat → List (RKey × RValue))
    (h : ∀ r ∈ rs, decodeRow b r = .ok (rec r)) :
    decodeRows b rs = .ok (rs.map rec) := by
  induction rs with
  | nil => rfl
  | cons r rest ih =>
      simp only [decodeRows, h r (by simp), bind, Except.bind,
        ih (fun x hx => h x (by simp [hx])), List.map_cons]

/-- Reading a list back by row indices is mapping over it. -/
theorem range_map_getD {β : Type} (data : List RValue) (g : RValue → β) :
    (List.range data.length).map (fun r => g (data.getD r .nil)) = data.map g := by
  refine List.ext_getElem (by simp) ?_
  intro i h1 h2
  have hi : i < data.length := by simpa using h2
  simp [List.getElem_map, List.getElem_range, List.getD_eq_getElem?_getD,
    List.getElem?_eq_getElem hi]

/-- Claim C1 (amended): for every nonempty schema of supported field
types with distinct names, and every record sequence that validates
against it and supplies no null vector values, decoding the batch
produced by encode yields exactly the normalized records: strings,
integers, booleans and nulls preserved, numerics at float32 fields
narrowed, vector fields preserved as their sequences of narrowed
floats, one entry per schema field in schema order under the symbolic
key.  (Null vector values are excluded: the code loses their validity
— claim C2 — so they come back as zero vectors.) -/
theorem roundtrip (n32 : Rat → Rat) (schema : List AField) (data : List RValue)
    (hne : schema ≠ []) (hnd : (schema.map AField.name).Nodup)
    (hsup : ∀ f ∈ schema, encodableField f = true)
    (hvalid : ∀ item ∈ data, validRecord schema item = true)
    (hnn : ∀ item ∈ data, hasNullVector schema item = false) :
    (build_record_batch n32 data schema).bind convert_batch_to_ruby =
      .ok (data.map (normalizeRecord n32 schema)) := by
  have hacc := accumulate_valid n32 schema data Accs.empty hvalid hsup
  have hcols := buildCols_of_pointwise (data.foldl (pushItem n32 schema) Accs.empty) schema
    (expectedCol n32 data)
    (fun f hf => buildColumn_final n32 data hf hnd (hsup f hf) hvalid hnn)
  have hsizes : ∀ c ∈ schema.map (expectedCol n32 data), c.size = data.length := by
    intro c hc
    obtain ⟨f, hf, rfl⟩ := List.mem_map.mp hc
    exact expectedCol_size n32 data hf (hsup f hf) hvalid hnn
  have htn := tryNew_sizes schema (schema.map (expectedCol n32 data)) data.length hne
    (by simp) hsizes
  have hbuild : build_record_batch n32 data schema =
      .ok ⟨schema, schema.map (expectedCol n32 data), data.length⟩ := by
    simp only [build_record_batch, hacc, bind, Except.bind, hcols, htn]
  have hzip : (ARecordBatch.mk schema (schema.map (expectedCol n32 data)) data.length).schema.zip
      (ARecordBatch.mk schema (schema.map (expectedCol n32 data)) data.length).columns =
      schema.map (fun f => (f, expectedCol n32 data f)) := by
    simp only []
    conv_lhs => rw [show schema.zip (schema.map (expectedCol n32 data)) =
      (schema.map id).zip (schema.map (expectedCol n32 data)) by rw [List.map_id]]
    rw [List.zip_map']
    simp
  have hrow : ∀ r ∈ List.range data.length,
      decodeRow ⟨schema, schema.map (expectedCol n32 data), data.length⟩ r =
        .ok (normalizeRecord n32 schema (data.getD r .nil)) := by
    intro r hrr
    have hr : r < data.length := List.mem_range.mp hrr
    rw [decodeRow, hzip]
    rw [decodeFields_of_pointwise r schema (expectedCol n32 data)
      (fun f => normalizeValue n32 f.dtype (fetchValD (entriesOf (data.getD r .nil)) f.name))
      (fun doc f hf => decodeField_expected n32 data hf (hsup f hf) hvalid hnn hr doc) []]
    rw [aset_fold_fresh schema _ hnd [] (fun f hf p hp => absurd hp (List.not_mem_nil p))]
    simp [normalizeRecord]
  have hdec : convert_batch_to_ruby ⟨schema, schema.map (expectedCol n32 data), data.length⟩ =
      .ok (data.map (normalizeRecord n32 schema)) := by
    rw [convert_batch_to_ruby]
    rw [decodeRows_of_pointwise _ _
      (fun r => normalizeRecord n32 schema (data.getD r .nil)) hrow]
    rw [range_map_getD data (normalizeRecord n32 schema)]
  rw [hbuild]
  simpa [Except.bind] using hdec

/-- Witness for the amended claim C1: a five-field schema covering
every supported type, two records exercising nulls, both key
representations, integer-to-float narrowing and vectors. -/
theorem roundtrip_witness :
    (build_record_batch id
        [.hash [(.sym "t", .str "a"), (.sym "s", .int 3), (.sym "n", .int 7),
                (.sym "b", .bool true), (.sym "v", .array [.int 1, .float 2])],
         .hash [(.str "t", .nil), (.sym "s", .nil), (.sym "n", .nil),
                (.sym "b", .nil), (.sym "v", .array [.int 4, .int 5])]]
        [⟨"t", .utf8, true⟩, ⟨"s", .float32, true⟩, ⟨"n", .int64, true⟩,
         ⟨"b", .boolean, true⟩, ⟨"v", .fixedSizeList "item" .float32 true 2, true⟩]).bind
      convert_batch_to_ruby =
      .ok ([.hash [(.sym "t", .str "a"), (.sym "s", .int 3), (.sym "n", .int 7),
                (.sym "b", .bool true), (.sym "v", .array [.int 1, .float 2])],
            .hash [(.str "t", .nil), (.sym "s", .nil), (.sym "n", .nil),
                (.sym "b", .nil), (.sym "v", .array [.int 4, .int 5])]].map
        (normalizeRecord id
          [⟨"t", .utf8, true⟩, ⟨"s", .float32, true⟩, ⟨"n", .int64, true⟩,
           ⟨"b", .boolean, true⟩, ⟨"v", .fixedSizeList "item" .float32 true 2, true⟩])) :=
  roundtrip id
    [⟨"t", .utf8, true⟩, ⟨"s", .float32, true⟩, ⟨"n", .int64, true⟩,
     ⟨"b", .boolean, true⟩, ⟨"v", .fixedSizeList "item" .float32 true 2, true⟩]
    [.hash [(.sym "t", .str "a"), (.sym "s", .int 3), (.sym "n", .int 7),
            (.sym "b", .bool true), (.sym "v", .array [.int 1, .float 2])],
     .hash [(.str "t", .nil), (.sym "s", .nil), (.sym "n", .nil),
            (.sym "b", .nil), (.sym "v", .array [.int 4, .int 5])]]
    (fun h => nomatch h) (by decide) (by decide) (by decide) (by decide)

end Lancelot
